import Mathlib

/-!
Verification of the GPU-accelerated SGD stress-minimization layout engine.

The repository's Rust code is shallowly embedded:
* `usize` values become `Nat`; the `usize::MAX` sentinel becomes the
  constant `USIZE_MAX = 2 ^ 64 - 1`.
* `f64` arithmetic is modelled exactly, over `ℚ` where the code only uses
  field operations and comparisons, and over `ℝ` where `sqrt`, `exp`, `ln`
  or trigonometric functions occur.  Rounding behaviour of floats is not
  modelled; `x / 0` follows Lean's convention (`= 0`) and any statement
  touching that case says so explicitly.
* `Vec<T>` becomes `List T`; indexed reads become `List.getD` (the code
  panics out of range, theorems carry in-range hypotheses where that
  matters) and indexed writes become `List.set`.
* The process-wide random generator becomes an explicitly threaded
  generator state, supplied by the caller.

`Graph`, `calc_adj_matrix`, `calc_dist_matrix`, `calc_edge_info`,
`calc_learning_rate` and `from_mtx` follow
`src/vram-lock-native/src/graph.rs` (namespace `Native`); the older wgpu
prototype `src/vram-lock/src/graph.rs` differs in `calc_adj_matrix` and
`from_mtx` and is embedded in namespace `VramLock`.  The sequential CPU
engine `execute_sgd` follows `src/baseline-sgd-non-gpu/src/algorithm.rs`
(namespace `Baseline`).  The per-node lock protocol of the parallel mode
lives in a Metal shader that is not part of the staged sources; namespace
`Lock` models it from the specification.
-/

/-- The `usize::MAX` sentinel marking an unreachable node in the distance
table. -/
def USIZE_MAX : Nat := 2 ^ 64 - 1

/-- The `Graph` struct shared by both GPU crates: node count, edge count and
the two parallel edge-endpoint arrays. -/
structure Graph where
  node_size : Nat
  edge_size : Nat
  edge_src : List Nat
  edge_dst : List Nat
  deriving DecidableEq, Repr

/-- `adj[s].push(d)`: append `d` to the adjacency row of `s` (a no-op when
`s` is out of range, where the Rust code would panic). -/
def pushAdj (adj : List (List Nat)) (s d : Nat) : List (List Nat) :=
  adj.set s (adj.getD s [] ++ [d])

/-- State of one breadth-first search: the work queue (front at the head),
the visited flags, and the current row of the distance table. -/
structure BfsState where
  deq : List Nat
  seen : List Bool
  dist : List Nat
  deriving DecidableEq, Repr

/-- Body of the inner neighbour loop of the BFS: skip `u` when already seen,
otherwise enqueue it, mark it, and record `dist[u] = dist[v] + 1` where `v`
is the node being expanded.  Out-of-range neighbours read as seen (the Rust
code would panic there). -/
def bfsPush (v : Nat) (st : BfsState) (u : Nat) : BfsState :=
  if st.seen.getD u true then st
  else
    { deq := st.deq ++ [u]
      seen := st.seen.set u true
      dist := st.dist.set u (st.dist.getD v 0 + 1) }

/-- Expand node `v`: run the neighbour loop over its adjacency row. -/
def bfsStep (adj : List (List Nat)) (v : Nat) (st : BfsState) : BfsState :=
  (adj.getD v []).foldl (bfsPush v) st

/-- Termination measure of the BFS loop: unseen nodes plus queue length. -/
def bfsMeasure (st : BfsState) : Nat := st.seen.count false + st.deq.length

theorem count_false_set_true :
    ∀ (l : List Bool) (u : Nat), l.getD u true = false →
      (l.set u true).count false + 1 = l.count false := by
  intro l
  induction l with
  | nil => intro u h; simp [List.getD] at h
  | cons b t ih =>
    intro u h
    cases u with
    | zero =>
      simp [List.getD] at h
      subst h
      simp [List.count_cons]
    | succ u =>
      simp only [List.getD, List.get?] at h
      have := ih u h
      simp [List.count_cons]
      omega

theorem bfsPush_measure_le (v : Nat) (st : BfsState) (u : Nat) :
    bfsMeasure (bfsPush v st u) ≤ bfsMeasure st := by
  unfold bfsPush
  split
  · exact le_refl _
  · rename_i h
    have h' : st.seen.getD u true = false := by
      simpa using h
    have := count_false_set_true st.seen u h'
    simp only [bfsMeasure, List.length_append, List.length_singleton]
    omega

theorem bfsStep_measure_le (adj : List (List Nat)) (v : Nat) (st : BfsState) :
    bfsMeasure (bfsStep adj v st) ≤ bfsMeasure st := by
  unfold bfsStep
  generalize adj.getD v [] = nbrs
  induction nbrs generalizing st with
  | nil => simp
  | cons u rest ih =>
    simp only [List.foldl]
    exact le_trans (ih (bfsPush v st u)) (bfsPush_measure_le v st u)

/-- The `while let Some(v) = deq.pop_front()` loop of `calc_dist_matrix`,
written as structural recursion on a fuel argument.  `bfsLoop` runs it with
fuel `bfsMeasure`, which `bfsLoopF_fuel` shows never runs out: each pass
strictly shrinks the measure, so when the fuel hits `0` the queue is already
empty and returning `st.dist` is exactly what the `while` loop does. -/
def bfsLoopF (adj : List (List Nat)) : Nat → BfsState → List Nat
  | 0, st => st.dist
  | fuel + 1, st =>
    match st.deq with
    | [] => st.dist
    | v :: rest => bfsLoopF adj fuel (bfsStep adj v ⟨rest, st.seen, st.dist⟩)

/-- The BFS `while` loop of `calc_dist_matrix`. -/
def bfsLoop (adj : List (List Nat)) (st : BfsState) : List Nat :=
  bfsLoopF adj (bfsMeasure st) st

/-- Any two fuels at least the measure compute the same result: the loop's
value no longer depends on the fuel. -/
theorem bfsLoopF_eq (adj : List (List Nat)) :
    ∀ (fuel fuel' : Nat) (st : BfsState),
      bfsMeasure st ≤ fuel → bfsMeasure st ≤ fuel' →
      bfsLoopF adj fuel st = bfsLoopF adj fuel' st := by
  intro fuel
  induction fuel with
  | zero =>
    intro fuel' st h h'
    have hq : st.deq = [] := by
      have := Nat.le_zero.mp h
      unfold bfsMeasure at this
      exact List.length_eq_zero.mp (by omega)
    cases fuel' with
    | zero => rfl
    | succ f => simp [bfsLoopF, hq]
  | succ fuel ih =>
    intro fuel' st h h'
    cases hq : st.deq with
    | nil =>
      cases fuel' with
      | zero => simp [bfsLoopF, hq]
      | succ f => simp [bfsLoopF, hq]
    | cons v rest =>
      have hm : bfsMeasure st = bfsMeasure (⟨rest, st.seen, st.dist⟩ : BfsState) + 1 := by
        unfold bfsMeasure
        rw [hq]
        simp
        omega
      have hstep : bfsMeasure (bfsStep adj v ⟨rest, st.seen, st.dist⟩) + 1 ≤ bfsMeasure st := by
        have h1 := bfsStep_measure_le adj v ⟨rest, st.seen, st.dist⟩
        omega
      cases fuel' with
      | zero =>
        exfalso
        unfold bfsMeasure at h'
        rw [hq] at h'
        simp at h'
      | succ f =>
        rw [show bfsLoopF adj (fuel + 1) st =
              bfsLoopF adj fuel (bfsStep adj v ⟨rest, st.seen, st.dist⟩) by
            simp [bfsLoopF, hq]]
        rw [show bfsLoopF adj (f + 1) st =
              bfsLoopF adj f (bfsStep adj v ⟨rest, st.seen, st.dist⟩) by
            simp [bfsLoopF, hq]]
        exact ih f _ (by omega) (by omega)

/-- Any fuel at least the measure computes the loop's fixpoint. -/
theorem bfsLoopF_fuel (adj : List (List Nat)) (fuel : Nat) (st : BfsState)
    (h : bfsMeasure st ≤ fuel) : bfsLoopF adj fuel st = bfsLoop adj st :=
  bfsLoopF_eq adj fuel (bfsMeasure st) st h le_rfl

/-- One full BFS from source `i` over `adj`, producing row `i` of the
distance table (`n` is the table width). -/
def bfsFrom (adj : List (List Nat)) (n i : Nat) : List Nat :=
  bfsLoop adj
    ⟨[i], (List.replicate n false).set i true, (List.replicate n USIZE_MAX).set i 0⟩

namespace Native

/-- Body of the edge loop of `Graph::calc_adj_matrix` in
`vram-lock-native/src/graph.rs`: `adj[src[i]].push(dst[i]);
adj[dst[i]].push(src[i])`. -/
def adjStep (g : Graph) (adj : List (List Nat)) (i : Nat) : List (List Nat) :=
  pushAdj (pushAdj adj (g.edge_src.getD i 0) (g.edge_dst.getD i 0))
    (g.edge_dst.getD i 0) (g.edge_src.getD i 0)

/-- `Graph::calc_adj_matrix` of `vram-lock-native/src/graph.rs`: undirected,
inserting both `(src,dst)` and `(dst,src)` for every edge. -/
def calc_adj_matrix (g : Graph) : List (List Nat) :=
  (List.range g.edge_size).foldl (adjStep g) (List.replicate g.node_size [])

/-- `Graph::calc_dist_matrix` of `vram-lock-native/src/graph.rs`. -/
def calc_dist_matrix (g : Graph) : List (List Nat) :=
  let adj := calc_adj_matrix g
  (List.range adj.length).map (fun i => bfsFrom adj adj.length i)

/-- `Graph::from_mtx` of `vram-lock-native/src/graph.rs`, after the external
matrix-market parse: zip the triplet index arrays and keep the non-self-loop
entries. -/
def from_mtx (rows : Nat) (row_inds col_inds : List Nat) : Graph :=
  let kept := (row_inds.zip col_inds).filter (fun p => p.1 ≠ p.2)
  { node_size := rows
    edge_size := kept.length
    edge_src := kept.map Prod.fst
    edge_dst := kept.map Prod.snd }

end Native

namespace VramLock

/-- Body of the edge loop of `Graph::calc_adj_matrix` in
`vram-lock/src/graph.rs`: only `adj[src[i]].push(dst[i])`. -/
def adjStep (g : Graph) (adj : List (List Nat)) (i : Nat) : List (List Nat) :=
  pushAdj adj (g.edge_src.getD i 0) (g.edge_dst.getD i 0)

/-- `Graph::calc_adj_matrix` of `vram-lock/src/graph.rs`: inserts only the
`(src,dst)` direction of every edge. -/
def calc_adj_matrix (g : Graph) : List (List Nat) :=
  (List.range g.edge_size).foldl (adjStep g) (List.replicate g.node_size [])

/-- `Graph::calc_dist_matrix` of `vram-lock/src/graph.rs` (same BFS loop,
over the one-directional adjacency). -/
def calc_dist_matrix (g : Graph) : List (List Nat) :=
  let adj := calc_adj_matrix g
  (List.range adj.length).map (fun i => bfsFrom adj adj.length i)

/-- `Graph::from_mtx` of `vram-lock/src/graph.rs`: copies the triplet index
arrays verbatim (`edge_size = nnz`), with no self-loop filtering. -/
def from_mtx (rows nnz : Nat) (row_inds col_inds : List Nat) : Graph :=
  { node_size := rows
    edge_size := nnz
    edge_src := row_inds
    edge_dst := col_inds }

end VramLock

/-- Well-formed graph: every edge endpoint is a valid node index (the Rust
code panics on anything else). -/
def Graph.WF (g : Graph) : Prop :=
  ∀ k, k < g.edge_size →
    g.edge_src.getD k 0 < g.node_size ∧ g.edge_dst.getD k 0 < g.node_size

instance (g : Graph) : Decidable g.WF := by
  unfold Graph.WF
  infer_instance

theorem pushAdj_length (adj : List (List Nat)) (s d : Nat) :
    (pushAdj adj s d).length = adj.length := by
  simp [pushAdj]

theorem mem_pushAdj (adj : List (List Nat)) (s d v u : Nat) :
    u ∈ (pushAdj adj s d).getD v [] ↔
      u ∈ adj.getD v [] ∨ (v = s ∧ u = d ∧ s < adj.length) := by
  unfold pushAdj
  by_cases hv : v = s
  · subst hv
    by_cases hlt : v < adj.length
    · rw [List.getD_eq_getElem?_getD, List.getElem?_set_eq_of_lt _ hlt]
      rw [List.getD_eq_getElem?_getD]
      simp [hlt]
    · rw [List.set_eq_of_length_le (by omega)]
      simp only [hlt, and_false, or_false]
  · rw [List.getD_eq_getElem?_getD, List.getElem?_set_ne (by omega),
      ← List.getD_eq_getElem?_getD]
    simp [hv]

theorem Native.mem_adjStep (g : Graph) (adj : List (List Nat)) (i v u : Nat) :
    u ∈ (Native.adjStep g adj i).getD v [] ↔
      u ∈ adj.getD v [] ∨
        (v = g.edge_src.getD i 0 ∧ u = g.edge_dst.getD i 0 ∧
          g.edge_src.getD i 0 < adj.length) ∨
        (v = g.edge_dst.getD i 0 ∧ u = g.edge_src.getD i 0 ∧
          g.edge_dst.getD i 0 < adj.length) := by
  unfold Native.adjStep
  rw [mem_pushAdj, mem_pushAdj, pushAdj_length]
  tauto

theorem VramLock.vl_mem_adjStep (g : Graph) (adj : List (List Nat)) (i v u : Nat) :
    u ∈ (VramLock.adjStep g adj i).getD v [] ↔
      u ∈ adj.getD v [] ∨
        (v = g.edge_src.getD i 0 ∧ u = g.edge_dst.getD i 0 ∧
          g.edge_src.getD i 0 < adj.length) := by
  unfold VramLock.adjStep
  rw [mem_pushAdj]

theorem foldl_length_inv {α : Type} (f : List (List Nat) → α → List (List Nat))
    (hf : ∀ a i, (f a i).length = a.length) :
    ∀ (l : List α) (init : List (List Nat)), (l.foldl f init).length = init.length := by
  intro l
  induction l with
  | nil => intro init; rfl
  | cons a t ih => intro init; rw [List.foldl_cons, ih, hf]

theorem mem_replicate_nil (n v u : Nat) :
    u ∈ (List.replicate n ([] : List Nat)).getD v [] → False := by
  intro h
  rcases Nat.lt_or_ge v n with hv | hv
  · rw [List.getD_eq_getElem?_getD, List.getElem?_replicate] at h
    simp [hv] at h
  · rw [List.getD_eq_getElem?_getD,
      List.getElem?_eq_none (by simpa using hv)] at h
    simp at h

theorem Native.adj_length (g : Graph) :
    (Native.calc_adj_matrix g).length = g.node_size := by
  unfold Native.calc_adj_matrix
  rw [foldl_length_inv]
  · simp
  · intro a i
    simp [Native.adjStep, pushAdj_length]

theorem VramLock.vl_adj_length (g : Graph) :
    (VramLock.calc_adj_matrix g).length = g.node_size := by
  unfold VramLock.calc_adj_matrix
  rw [foldl_length_inv]
  · simp
  · intro a i
    simp [VramLock.adjStep, pushAdj_length]

/-- Membership in the undirected adjacency of `vram-lock-native`: `u` is a
listed neighbour of `v` exactly when some edge joins `v` and `u` in either
orientation (and `v` is a valid row). -/
theorem Native.mem_adj (g : Graph) (v u : Nat) :
    u ∈ (Native.calc_adj_matrix g).getD v [] ↔
      ∃ k, k < g.edge_size ∧ v < g.node_size ∧
        ((g.edge_src.getD k 0 = v ∧ g.edge_dst.getD k 0 = u) ∨
         (g.edge_dst.getD k 0 = v ∧ g.edge_src.getD k 0 = u)) := by
  have main : ∀ m : Nat,
      u ∈ ((List.range m).foldl (Native.adjStep g)
            (List.replicate g.node_size [])).getD v [] ↔
        ∃ k, k < m ∧ v < g.node_size ∧
          ((g.edge_src.getD k 0 = v ∧ g.edge_dst.getD k 0 = u) ∨
           (g.edge_dst.getD k 0 = v ∧ g.edge_src.getD k 0 = u)) := by
    intro m
    induction m with
    | zero =>
      simp only [List.range_zero, List.foldl_nil]
      constructor
      · intro h
        exact absurd h (mem_replicate_nil _ _ _)
      · rintro ⟨k, hk, -⟩
        omega
    | succ m ih =>
      rw [List.range_succ, List.foldl_append]
      simp only [List.foldl_cons, List.foldl_nil]
      have hlen : ((List.range m).foldl (Native.adjStep g)
          (List.replicate g.node_size [])).length = g.node_size := by
        rw [foldl_length_inv]
        · simp
        · intro a i
          simp [Native.adjStep, pushAdj_length]
      rw [Native.mem_adjStep, ih, hlen]
      constructor
      · rintro (⟨k, hk, hv, hcase⟩ | ⟨rfl, rfl, hs⟩ | ⟨rfl, rfl, hd⟩)
        · exact ⟨k, by omega, hv, hcase⟩
        · exact ⟨m, by omega, hs, Or.inl ⟨rfl, rfl⟩⟩
        · exact ⟨m, by omega, hd, Or.inr ⟨rfl, rfl⟩⟩
      · rintro ⟨k, hk, hv, hcase⟩
        rcases Nat.lt_or_ge k m with hkm | hkm
        · exact Or.inl ⟨k, hkm, hv, hcase⟩
        · have hkm' : k = m := by omega
          subst hkm'
          rcases hcase with ⟨h1, h2⟩ | ⟨h1, h2⟩
          · exact Or.inr (Or.inl ⟨h1.symm, h2.symm, h1 ▸ hv⟩)
          · exact Or.inr (Or.inr ⟨h1.symm, h2.symm, h1 ▸ hv⟩)
  exact main g.edge_size

/-- Membership in the one-directional adjacency of `vram-lock`: `u` is a
listed neighbour of `v` exactly when some edge has source `v` and target
`u`. -/
theorem VramLock.vl_mem_adj (g : Graph) (v u : Nat) :
    u ∈ (VramLock.calc_adj_matrix g).getD v [] ↔
      ∃ k, k < g.edge_size ∧ v < g.node_size ∧
        g.edge_src.getD k 0 = v ∧ g.edge_dst.getD k 0 = u := by
  have main : ∀ m : Nat,
      u ∈ ((List.range m).foldl (VramLock.adjStep g)
            (List.replicate g.node_size [])).getD v [] ↔
        ∃ k, k < m ∧ v < g.node_size ∧
          g.edge_src.getD k 0 = v ∧ g.edge_dst.getD k 0 = u := by
    intro m
    induction m with
    | zero =>
      simp only [List.range_zero, List.foldl_nil]
      constructor
      · intro h
        exact absurd h (mem_replicate_nil _ _ _)
      · rintro ⟨k, hk, -⟩
        omega
    | succ m ih =>
      rw [List.range_succ, List.foldl_append]
      simp only [List.foldl_cons, List.foldl_nil]
      have hlen : ((List.range m).foldl (VramLock.adjStep g)
          (List.replicate g.node_size [])).length = g.node_size := by
        rw [foldl_length_inv]
        · simp
        · intro a i
          simp [VramLock.adjStep, pushAdj_length]
      rw [VramLock.vl_mem_adjStep, ih, hlen]
      constructor
      · rintro (⟨k, hk, hv, hcase⟩ | ⟨rfl, rfl, hs⟩)
        · exact ⟨k, by omega, hv, hcase⟩
        · exact ⟨m, by omega, hs, rfl, rfl⟩
      · rintro ⟨k, hk, hv, h1, h2⟩
        rcases Nat.lt_or_ge k m with hkm | hkm
        · exact Or.inl ⟨k, hkm, hv, h1, h2⟩
        · have hkm' : k = m := by omega
          subst hkm'
          exact Or.inr ⟨h1.symm, h2.symm, h1 ▸ hv⟩
  exact main g.edge_size

example :
    Native.calc_dist_matrix ⟨2, 1, [0], [1]⟩ = [[0, 1], [1, 0]] := by
  decide

example :
    Native.calc_dist_matrix ⟨3, 2, [0, 1], [1, 2]⟩ =
      [[0, 1, 2], [1, 0, 1], [2, 1, 0]] := by
  decide

/-! ### BFS correctness

`ReachN adj i d j` holds when a walk of exactly `d` hops leads from `i` to
`j` in the adjacency structure; `bfs_correct` below shows the BFS row holds
the minimum such `d` for reachable targets and `USIZE_MAX` otherwise. -/

inductive ReachN (adj : List (List Nat)) (i : Nat) : Nat → Nat → Prop
  | refl : ReachN adj i 0 i
  | tail {d v u : Nat} : ReachN adj i d v → u ∈ adj.getD v [] → ReachN adj i (d + 1) u

theorem ReachN.head {adj : List (List Nat)} {i u j d : Nat}
    (h1 : u ∈ adj.getD i []) (h2 : ReachN adj u d j) : ReachN adj i (d + 1) j := by
  induction h2 with
  | refl => exact ReachN.refl.tail h1
  | tail hr he ih => exact ih.tail he

theorem ReachN.target_lt {adj : List (List Nat)} {n i d w : Nat}
    (hi : i < n) (hrange : ∀ v u, u ∈ adj.getD v [] → u < n)
    (h : ReachN adj i d w) : w < n := by
  induction h with
  | refl => exact hi
  | tail hr he ih => exact hrange _ _ he

theorem ReachN.symm {adj : List (List Nat)}
    (hsymm : ∀ v u, u ∈ adj.getD v [] → v ∈ adj.getD u []) {i d j : Nat}
    (h : ReachN adj i d j) : ReachN adj j d i := by
  induction h with
  | refl => exact ReachN.refl
  | tail hr he ih => exact ReachN.head (hsymm _ _ he) ih

theorem ReachN.zero_eq {adj : List (List Nat)} {i w : Nat}
    (h : ReachN adj i 0 w) : w = i := by
  cases h
  rfl

theorem ReachN.succ_inv {adj : List (List Nat)} {i d w : Nat}
    (h : ReachN adj i (d + 1) w) : ∃ y, ReachN adj i d y ∧ w ∈ adj.getD y [] := by
  cases h with
  | tail hr he => exact ⟨_, hr, he⟩

theorem getD_set_self {α : Type} (l : List α) (u : Nat) (a d : α)
    (h : u < l.length) : (l.set u a).getD u d = a := by
  rw [List.getD_eq_getElem?_getD, List.getElem?_set_eq_of_lt _ h]
  rfl

theorem getD_set_ne {α : Type} (l : List α) (u w : Nat) (a d : α)
    (h : u ≠ w) : (l.set u a).getD w d = l.getD w d := by
  rw [List.getD_eq_getElem?_getD, List.getElem?_set_ne h,
    ← List.getD_eq_getElem?_getD]

theorem lt_length_of_getD_false (l : List Bool) (u : Nat)
    (h : l.getD u true = false) : u < l.length := by
  by_contra hge
  rw [List.getD_eq_getElem?_getD, List.getElem?_eq_none (by omega)] at h
  simp at h

/-- `seen[u]`, read the way `bfsPush` reads it. -/
def seenB (st : BfsState) (u : Nat) : Bool := st.seen.getD u true

/-- `dist[u]`, read the way `bfsPush` reads it. -/
def distOf (st : BfsState) (u : Nat) : Nat := st.dist.getD u 0

/-- The BFS loop invariant, for a search over `adj` from source `i` with
table width `n`: the visited flags and distance row are `n` long; the
source is visited; queue entries are valid, visited, distinct nodes whose
recorded distances are nondecreasing and spread over at most two adjacent
levels; every visited node's recorded distance is the exact walk distance
from the source; unvisited nodes still hold the sentinel; every neighbour
of a dequeued node is visited; and every unvisited node lies strictly
beyond the level of the queue's head. -/
structure BfsInv (adj : List (List Nat)) (n i : Nat) (st : BfsState) : Prop where
  seen_len : st.seen.length = n
  dist_len : st.dist.length = n
  src_seen : seenB st i = true
  queue_lt : ∀ v ∈ st.deq, v < n
  queue_seen : ∀ v ∈ st.deq, seenB st v = true
  queue_nodup : st.deq.Nodup
  exact_seen : ∀ u, u < n → seenB st u = true →
    ReachN adj i (distOf st u) u ∧ ∀ d, ReachN adj i d u → distOf st u ≤ d
  unseen_max : ∀ u, u < n → seenB st u = false → distOf st u = USIZE_MAX
  queue_mono : st.deq.Pairwise (fun a b => distOf st a ≤ distOf st b)
  queue_spread : ∀ a ∈ st.deq, ∀ b ∈ st.deq, distOf st b ≤ distOf st a + 1
  processed_closed : ∀ y, y < n → seenB st y = true → y ∉ st.deq →
    ∀ u ∈ adj.getD y [], seenB st u = true
  head_bound : ∀ v rest, st.deq = v :: rest → ∀ w, w < n → seenB st w = false →
    ∀ d, ReachN adj i d w → distOf st v + 1 ≤ d

/-- The invariant holding while the neighbours of the just-dequeued node `v`
(at level `D`) are pushed one by one; `pending` is the suffix of `v`'s
adjacency row not yet handled. -/
structure MidInv (adj : List (List Nat)) (n i v D : Nat)
    (pending : List Nat) (st : BfsState) : Prop where
  seen_len : st.seen.length = n
  dist_len : st.dist.length = n
  src_seen : seenB st i = true
  v_lt : v < n
  v_seen : seenB st v = true
  v_not_queue : v ∉ st.deq
  v_dist : distOf st v = D
  queue_lt : ∀ a ∈ st.deq, a < n
  queue_seen : ∀ a ∈ st.deq, seenB st a = true
  queue_nodup : st.deq.Nodup
  exact_seen : ∀ u, u < n → seenB st u = true →
    ReachN adj i (distOf st u) u ∧ ∀ d, ReachN adj i d u → distOf st u ≤ d
  unseen_max : ∀ u, u < n → seenB st u = false → distOf st u = USIZE_MAX
  queue_mono : st.deq.Pairwise (fun a b => distOf st a ≤ distOf st b)
  queue_bounds : ∀ a ∈ st.deq, D ≤ distOf st a ∧ distOf st a ≤ D + 1
  processed_closed : ∀ y, y < n → seenB st y = true → y ∉ st.deq → y ≠ v →
    ∀ u ∈ adj.getD y [], seenB st u = true
  pending_sub : ∀ u ∈ pending, u ∈ adj.getD v []
  pending_cover : ∀ u ∈ adj.getD v [], u ∈ pending ∨ seenB st u = true
  unseen_far : ∀ w, w < n → seenB st w = false → ∀ d, ReachN adj i d w → D + 1 ≤ d

theorem seenB_mono {st : BfsState} {u w : Nat} (hu : u < st.seen.length)
    (h : seenB st w = true) :
    seenB ⟨st.deq ++ [u], st.seen.set u true,
      st.dist.set u (st.dist.getD v 0 + 1)⟩ w = true := by
  by_cases hw : w = u
  · subst hw
    exact getD_set_self _ _ _ _ hu
  · unfold seenB at h ⊢
    rw [getD_set_ne _ _ _ _ _ (fun hh => hw hh.symm)]
    exact h

theorem MidInv.push {adj : List (List Nat)} {n i v D u : Nat}
    {pending : List Nat} {st : BfsState}
    (H : MidInv adj n i v D (u :: pending) st) :
    MidInv adj n i v D pending (bfsPush v st u) := by
  by_cases hs : seenB st u = true
  · have heq : bfsPush v st u = st := by
      unfold bfsPush
      unfold seenB at hs
      exact if_pos hs
    rw [heq]
    exact { H with
      pending_sub := fun w hw => H.pending_sub w (List.mem_cons_of_mem _ hw)
      pending_cover := fun w hw => by
        rcases H.pending_cover w hw with hmem | hseen
        · rcases List.mem_cons.mp hmem with rfl | h
          · exact Or.inr hs
          · exact Or.inl h
        · exact Or.inr hseen }
  · have hsF : st.seen.getD u true = false := by
      unfold seenB at hs
      simpa using hs
    have hulen : u < st.seen.length := lt_length_of_getD_false _ _ hsF
    have hun : u < n := by
      rw [H.seen_len] at hulen
      exact hulen
    have huv : u ≠ v := by
      intro h
      rw [h] at hs
      exact hs H.v_seen
    have hui : u ≠ i := by
      intro h
      rw [h] at hs
      exact hs H.src_seen
    have hudeq : u ∉ st.deq := by
      intro h
      exact hs (H.queue_seen u h)
    have huadj : u ∈ adj.getD v [] := H.pending_sub u (List.mem_cons_self u pending)
    have hst' : bfsPush v st u =
        ⟨st.deq ++ [u], st.seen.set u true,
          st.dist.set u (st.dist.getD v 0 + 1)⟩ := by
      unfold bfsPush
      exact if_neg (by rw [hsF]; simp)
    have hdvD : st.dist.getD v 0 = D := H.v_dist
    rw [hst', hdvD]
    set st' : BfsState :=
      ⟨st.deq ++ [u], st.seen.set u true, st.dist.set u (D + 1)⟩ with hstdef
    have hseen_at : ∀ w, w ≠ u → seenB st' w = seenB st w := by
      intro w hw
      unfold seenB
      exact getD_set_ne _ _ _ _ _ (fun hh => hw hh.symm)
    have hseen_u : seenB st' u = true := getD_set_self _ _ _ _ hulen
    have hdist_at : ∀ w, w ≠ u → distOf st' w = distOf st w := by
      intro w hw
      unfold distOf
      exact getD_set_ne _ _ _ _ _ (fun hh => hw hh.symm)
    have hdist_u : distOf st' u = D + 1 := by
      unfold distOf
      exact getD_set_self _ _ _ _ (by rw [H.dist_len]; exact hun)
    have hmono : ∀ w, seenB st w = true → seenB st' w = true := by
      intro w hw
      by_cases hwu : w = u
      · subst hwu
        exact hseen_u
      · rw [hseen_at w hwu]
        exact hw
    refine
      { seen_len := by simpa using H.seen_len
        dist_len := by simpa using H.dist_len
        src_seen := by rw [hseen_at i hui.symm]; exact H.src_seen
        v_lt := H.v_lt
        v_seen := by rw [hseen_at v (fun h => huv h.symm)]; exact H.v_seen
        v_not_queue := ?_
        v_dist := by rw [hdist_at v (fun h => huv h.symm)]; exact H.v_dist
        queue_lt := ?_
        queue_seen := ?_
        queue_nodup := ?_
        exact_seen := ?_
        unseen_max := ?_
        queue_mono := ?_
        queue_bounds := ?_
        processed_closed := ?_
        pending_sub := fun w hw => H.pending_sub w (List.mem_cons_of_mem _ hw)
        pending_cover := ?_
        unseen_far := ?_ }
    · intro h
      rcases List.mem_append.mp h with h | h
      · exact H.v_not_queue h
      · exact huv (List.mem_singleton.mp h).symm
    · intro a ha
      rcases List.mem_append.mp ha with h | h
      · exact H.queue_lt a h
      · rw [List.mem_singleton.mp h]
        exact hun
    · intro a ha
      rcases List.mem_append.mp ha with h | h
      · have hau : a ≠ u := fun hh => hudeq (hh ▸ h)
        rw [hseen_at a hau]
        exact H.queue_seen a h
      · rw [List.mem_singleton.mp h]
        exact hseen_u
    · rw [List.nodup_append]
      refine ⟨H.queue_nodup, List.nodup_singleton u, ?_⟩
      intro a ha hb
      rw [List.mem_singleton.mp hb] at ha
      exact hudeq ha
    · intro w hw hws
      by_cases hwu : w = u
      · subst hwu
        rw [hdist_u]
        constructor
        · have hv := (H.exact_seen v H.v_lt H.v_seen).1
          rw [H.v_dist] at hv
          exact hv.tail huadj
        · intro d hd
          exact H.unseen_far w hun hsF d hd
      · rw [hseen_at w hwu] at hws
        rw [hdist_at w hwu]
        exact H.exact_seen w hw hws
    · intro w hw hws
      have hwu : w ≠ u := by
        intro h
        rw [h, hseen_u] at hws
        cases hws
      rw [hseen_at w hwu] at hws
      rw [hdist_at w hwu]
      exact H.unseen_max w hw hws
    · rw [List.pairwise_append]
      refine ⟨?_, List.pairwise_singleton _ _, ?_⟩
      · refine List.Pairwise.imp_of_mem ?_ H.queue_mono
        intro a b ha hb hab
        have hau : a ≠ u := fun hh => hudeq (hh ▸ ha)
        have hbu : b ≠ u := fun hh => hudeq (hh ▸ hb)
        rw [hdist_at a hau, hdist_at b hbu]
        exact hab
      · intro a ha b hb
        rw [List.mem_singleton.mp hb, hdist_u]
        have hau : a ≠ u := fun hh => hudeq (hh ▸ ha)
        rw [hdist_at a hau]
        exact (H.queue_bounds a ha).2
    · intro a ha
      rcases List.mem_append.mp ha with h | h
      · have hau : a ≠ u := fun hh => hudeq (hh ▸ h)
        rw [hdist_at a hau]
        exact H.queue_bounds a h
      · rw [List.mem_singleton.mp h, hdist_u]
        omega
    · intro y hy hys hyq hyv
      have hyu : y ≠ u := by
        intro h
        exact hyq (h ▸ List.mem_append.mpr (Or.inr (List.mem_singleton.mpr rfl)))
      rw [hseen_at y hyu] at hys
      have hyq' : y ∉ st.deq := fun h => hyq (List.mem_append.mpr (Or.inl h))
      intro w hw
      exact hmono w (H.processed_closed y hy hys hyq' hyv w hw)
    · intro w hw
      rcases H.pending_cover w hw with hmem | hseen
      · rcases List.mem_cons.mp hmem with rfl | h
        · exact Or.inr hseen_u
        · exact Or.inl h
      · exact Or.inr (hmono w hseen)
    · intro w hw hws d hd
      have hwu : w ≠ u := by
        intro h
        rw [h, hseen_u] at hws
        cases hws
      rw [hseen_at w hwu] at hws
      exact H.unseen_far w hw hws d hd

theorem MidInv.fold {adj : List (List Nat)} {n i v D : Nat} :
    ∀ (pending : List Nat) (st : BfsState),
      MidInv adj n i v D pending st →
      MidInv adj n i v D [] (pending.foldl (bfsPush v) st) := by
  intro pending
  induction pending with
  | nil => intro st H; exact H
  | cons u rest ih =>
    intro st H
    exact ih (bfsPush v st u) H.push

theorem BfsInv.pop {adj : List (List Nat)} {n i : Nat} {st : BfsState}
    {v : Nat} {rest : List Nat}
    (H : BfsInv adj n i st) (hq : st.deq = v :: rest) :
    MidInv adj n i v (distOf st v) (adj.getD v [])
      ⟨rest, st.seen, st.dist⟩ := by
  have hvmem : v ∈ st.deq := by rw [hq]; exact List.mem_cons_self v rest
  have hnodup := H.queue_nodup
  rw [hq] at hnodup
  have hmono := H.queue_mono
  rw [hq] at hmono
  refine
    { seen_len := H.seen_len
      dist_len := H.dist_len
      src_seen := H.src_seen
      v_lt := H.queue_lt v hvmem
      v_seen := H.queue_seen v hvmem
      v_not_queue := (List.nodup_cons.mp hnodup).1
      v_dist := rfl
      queue_lt := fun a ha => H.queue_lt a (by rw [hq]; exact List.mem_cons_of_mem _ ha)
      queue_seen := fun a ha => H.queue_seen a (by rw [hq]; exact List.mem_cons_of_mem _ ha)
      queue_nodup := (List.nodup_cons.mp hnodup).2
      exact_seen := H.exact_seen
      unseen_max := H.unseen_max
      queue_mono := (List.pairwise_cons.mp hmono).2
      queue_bounds := fun a ha => ?_
      processed_closed := fun y hy hys hyq hyv => H.processed_closed y hy hys ?_
      pending_sub := fun u hu => hu
      pending_cover := fun u hu => Or.inl hu
      unseen_far := H.head_bound v rest hq }
  · constructor
    · exact (List.pairwise_cons.mp hmono).1 a ha
    · exact H.queue_spread v hvmem a (by rw [hq]; exact List.mem_cons_of_mem _ ha)
  · rw [hq]
    intro hmem
    rcases List.mem_cons.mp hmem with h | h
    · exact hyv h
    · exact hyq h

theorem MidInv.close {adj : List (List Nat)} {n i v D : Nat} {st : BfsState}
    (hi : i < n) (hrange : ∀ a b, b ∈ adj.getD a [] → b < n)
    (H : MidInv adj n i v D [] st) : BfsInv adj n i st := by
  refine
    { seen_len := H.seen_len
      dist_len := H.dist_len
      src_seen := H.src_seen
      queue_lt := H.queue_lt
      queue_seen := H.queue_seen
      queue_nodup := H.queue_nodup
      exact_seen := H.exact_seen
      unseen_max := H.unseen_max
      queue_mono := H.queue_mono
      queue_spread := fun a ha b hb => ?_
      processed_closed := fun y hy hys hyq => ?_
      head_bound := fun h rest hq w hw hws d hd => ?_ }
  · have hba := H.queue_bounds a ha
    have hbb := H.queue_bounds b hb
    omega
  · by_cases hyv : y = v
    · subst hyv
      intro u hu
      rcases H.pending_cover u hu with hmem | hseen
      · cases hmem
      · exact hseen
    · exact H.processed_closed y hy hys hyq hyv
  · have hfar := H.unseen_far w hw hws d hd
    have hbh := H.queue_bounds h (by rw [hq]; exact List.mem_cons_self h rest)
    rcases Nat.lt_or_ge (distOf st h) (D + 1) with hcase | hcase
    · omega
    · have hdh : distOf st h = D + 1 := by omega
      rw [hdh]
      by_contra hlt
      have hd1 : d = D + 1 := by omega
      subst hd1
      obtain ⟨y, hy, hwy⟩ := hd.succ_inv
      have hyn : y < n := hy.target_lt hi hrange
      have hyseen : seenB st y = true := by
        by_contra hys
        have hysF : seenB st y = false := by simpa using hys
        have := H.unseen_far y hyn hysF D hy
        omega
      have hydist : distOf st y ≤ D := (H.exact_seen y hyn hyseen).2 D hy
      have hynq : y ∉ st.deq := by
        intro hmem
        rw [hq] at hmem
        rcases List.mem_cons.mp hmem with h1 | h1
        · rw [h1] at hydist
          omega
        · have hmono := H.queue_mono
          rw [hq] at hmono
          have := (List.pairwise_cons.mp hmono).1 y h1
          omega
      by_cases hyv : y = v
      · subst hyv
        rcases H.pending_cover w hwy with hmem | hseen
        · cases hmem
        · rw [hseen] at hws
          cases hws
      · have := H.processed_closed y hyn hyseen hynq hyv w hwy
        rw [this] at hws
        cases hws

theorem bfsLoopF_inv {adj : List (List Nat)} {n i : Nat} (hi : i < n)
    (hrange : ∀ a b, b ∈ adj.getD a [] → b < n) :
    ∀ (fuel : Nat) (st : BfsState), bfsMeasure st ≤ fuel → BfsInv adj n i st →
      ∃ stf : BfsState,
        bfsLoopF adj fuel st = stf.dist ∧ BfsInv adj n i stf ∧ stf.deq = [] := by
  intro fuel
  induction fuel with
  | zero =>
    intro st hm H
    have hq : st.deq = [] := by
      have := Nat.le_zero.mp hm
      unfold bfsMeasure at this
      exact List.length_eq_zero.mp (by omega)
    exact ⟨st, rfl, H, hq⟩
  | succ fuel ih =>
    intro st hm H
    cases hq : st.deq with
    | nil => exact ⟨st, by simp [bfsLoopF, hq], H, hq⟩
    | cons v rest =>
      have H1 : BfsInv adj n i (bfsStep adj v ⟨rest, st.seen, st.dist⟩) :=
        ((H.pop hq).fold (adj.getD v []) _).close hi hrange
      have hm1 : bfsMeasure (bfsStep adj v ⟨rest, st.seen, st.dist⟩) ≤ fuel := by
        have h1 := bfsStep_measure_le adj v ⟨rest, st.seen, st.dist⟩
        have h2 : bfsMeasure st = st.seen.count false + (rest.length + 1) := by
          unfold bfsMeasure
          rw [hq]
          simp
        unfold bfsMeasure at *
        simp at h1 ⊢
        omega
      obtain ⟨stf, e, Hf, hqf⟩ := ih (bfsStep adj v ⟨rest, st.seen, st.dist⟩) hm1 H1
      refine ⟨stf, ?_, Hf, hqf⟩
      rw [show bfsLoopF adj (fuel + 1) st =
            bfsLoopF adj fuel (bfsStep adj v ⟨rest, st.seen, st.dist⟩) by
          simp [bfsLoopF, hq]]
      exact e

theorem bfsInit_inv {adj : List (List Nat)} {n i : Nat} (hi : i < n) :
    BfsInv adj n i
      ⟨[i], (List.replicate n false).set i true,
        (List.replicate n USIZE_MAX).set i 0⟩ := by
  set st0 : BfsState :=
    ⟨[i], (List.replicate n false).set i true,
      (List.replicate n USIZE_MAX).set i 0⟩ with hst0
  have hslen : st0.seen.length = n := by simp [hst0]
  have hdlen : st0.dist.length = n := by simp [hst0]
  have hseen_i : seenB st0 i = true := by
    unfold seenB
    exact getD_set_self _ _ _ _ (by simp; exact hi)
  have hseen_ne : ∀ w, w ≠ i → w < n → seenB st0 w = false := by
    intro w hw hwn
    unfold seenB
    show ((List.replicate n false).set i true).getD w true = false
    rw [getD_set_ne _ _ _ _ _ (fun hh => hw hh.symm)]
    rw [List.getD_eq_getElem?_getD, List.getElem?_replicate]
    simp [hwn]
  have hseen_char : ∀ w, w < n → seenB st0 w = true → w = i := by
    intro w hwn hws
    by_contra hne
    rw [hseen_ne w hne hwn] at hws
    cases hws
  have hdist_i : distOf st0 i = 0 := by
    unfold distOf
    exact getD_set_self _ _ _ _ (by simp; exact hi)
  have hdist_ne : ∀ w, w ≠ i → distOf st0 w = (List.replicate n USIZE_MAX).getD w 0 := by
    intro w hw
    unfold distOf
    show ((List.replicate n USIZE_MAX).set i 0).getD w 0 = _
    rw [getD_set_ne _ _ _ _ _ (fun hh => hw hh.symm)]
  refine
    { seen_len := hslen
      dist_len := hdlen
      src_seen := hseen_i
      queue_lt := ?_
      queue_seen := ?_
      queue_nodup := List.nodup_singleton i
      exact_seen := ?_
      unseen_max := ?_
      queue_mono := List.pairwise_singleton _ i
      queue_spread := ?_
      processed_closed := ?_
      head_bound := ?_ }
  · intro a ha
    rw [show st0.deq = [i] from rfl] at ha
    rw [List.mem_singleton.mp ha]
    exact hi
  · intro a ha
    rw [show st0.deq = [i] from rfl] at ha
    rw [List.mem_singleton.mp ha]
    exact hseen_i
  · intro u hun hus
    have hui : u = i := hseen_char u hun hus
    subst hui
    rw [hdist_i]
    exact ⟨ReachN.refl, fun d hd => Nat.zero_le d⟩
  · intro u hun hus
    have hne : u ≠ i := by
      intro h
      rw [h, hseen_i] at hus
      cases hus
    rw [hdist_ne u hne, List.getD_eq_getElem?_getD, List.getElem?_replicate]
    simp [hun]
  · intro a ha b hb
    rw [show st0.deq = [i] from rfl] at ha hb
    rw [List.mem_singleton.mp ha, List.mem_singleton.mp hb]
    omega
  · intro y hyn hys hyq
    exfalso
    have := hseen_char y hyn hys
    subst this
    exact hyq (List.mem_singleton.mpr rfl)
  · intro v rest hq w hwn hws d hd
    have hvi : v = i := by
      have h0 : st0.deq = [i] := rfl
      rw [h0] at hq
      exact (List.cons.inj hq.symm).1
    subst hvi
    rw [hdist_i]
    cases d with
    | zero =>
      exfalso
      have := hd.zero_eq
      subst this
      rw [hseen_i] at hws
      cases hws
    | succ d => omega

/-- BFS correctness: for every valid target `j`, the produced row either
holds the sentinel and `j` is unreachable, or it holds the exact minimum
walk length from the source `i`. -/
theorem bfs_correct {adj : List (List Nat)} {n i : Nat} (hi : i < n)
    (hrange : ∀ a b, b ∈ adj.getD a [] → b < n) (j : Nat) (hj : j < n) :
    ((bfsFrom adj n i).getD j 0 = USIZE_MAX ∧ ∀ d, ¬ ReachN adj i d j) ∨
    (ReachN adj i ((bfsFrom adj n i).getD j 0) j ∧
      ∀ d, ReachN adj i d j → (bfsFrom adj n i).getD j 0 ≤ d) := by
  unfold bfsFrom bfsLoop
  obtain ⟨stf, e, Hf, hqf⟩ :=
    bfsLoopF_inv hi hrange _ _ le_rfl (bfsInit_inv hi)
  rw [e]
  have hreach_seen : ∀ d w, ReachN adj i d w → seenB stf w = true := by
    intro d w h
    induction h with
    | refl => exact Hf.src_seen
    | @tail d' v' u' hr he ih =>
      have hyn := hr.target_lt hi hrange
      have hynq : v' ∉ stf.deq := by
        rw [hqf]
        exact List.not_mem_nil _
      exact Hf.processed_closed _ hyn ih hynq _ he
  by_cases hseen : seenB stf j = true
  · right
    exact Hf.exact_seen j hj hseen
  · left
    have hF : seenB stf j = false := by simpa using hseen
    refine ⟨Hf.unseen_max j hj hF, ?_⟩
    intro d hd
    have := hreach_seen d j hd
    rw [hF] at this
    cases this

theorem getD_map_range {α : Type} (f : Nat → α) (n i : Nat) (d : α)
    (h : i < n) : ((List.range n).map f).getD i d = f i := by
  rw [List.getD_eq_getElem?_getD, List.getElem?_map, List.getElem?_range h]
  rfl

theorem Native.adj_range (g : Graph) (hwf : g.WF) :
    ∀ a b, b ∈ (Native.calc_adj_matrix g).getD a [] → b < g.node_size := by
  intro a b hmem
  obtain ⟨k, hk, hv, hcase⟩ := (Native.mem_adj g a b).mp hmem
  rcases hcase with ⟨h1, h2⟩ | ⟨h1, h2⟩
  · exact h2 ▸ (hwf k hk).2
  · exact h2 ▸ (hwf k hk).1

theorem Native.adj_symm (g : Graph) (hwf : g.WF) :
    ∀ a b, b ∈ (Native.calc_adj_matrix g).getD a [] →
      a ∈ (Native.calc_adj_matrix g).getD b [] := by
  intro a b hmem
  obtain ⟨k, hk, hv, hcase⟩ := (Native.mem_adj g a b).mp hmem
  apply (Native.mem_adj g b a).mpr
  rcases hcase with ⟨h1, h2⟩ | ⟨h1, h2⟩
  · exact ⟨k, hk, h2 ▸ (hwf k hk).2, Or.inr ⟨h2, h1⟩⟩
  · exact ⟨k, hk, h2 ▸ (hwf k hk).1, Or.inl ⟨h2, h1⟩⟩

theorem VramLock.vl_adj_range (g : Graph) (hwf : g.WF) :
    ∀ a b, b ∈ (VramLock.calc_adj_matrix g).getD a [] → b < g.node_size := by
  intro a b hmem
  obtain ⟨k, hk, hv, h1, h2⟩ := (VramLock.vl_mem_adj g a b).mp hmem
  exact h2 ▸ (hwf k hk).2

theorem Native.dist_row (g : Graph) (i : Nat) (hi : i < g.node_size) :
    (Native.calc_dist_matrix g).getD i [] =
      bfsFrom (Native.calc_adj_matrix g) g.node_size i := by
  have hlen := Native.adj_length g
  show (((List.range (Native.calc_adj_matrix g).length).map
      (fun i => bfsFrom (Native.calc_adj_matrix g)
        (Native.calc_adj_matrix g).length i)).getD i []) = _
  rw [getD_map_range _ _ _ _ (by rw [hlen]; exact hi), hlen]

theorem VramLock.vl_dist_row (g : Graph) (i : Nat) (hi : i < g.node_size) :
    (VramLock.calc_dist_matrix g).getD i [] =
      bfsFrom (VramLock.calc_adj_matrix g) g.node_size i := by
  have hlen := VramLock.vl_adj_length g
  show (((List.range (VramLock.calc_adj_matrix g).length).map
      (fun i => bfsFrom (VramLock.calc_adj_matrix g)
        (VramLock.calc_adj_matrix g).length i)).getD i []) = _
  rw [getD_map_range _ _ _ _ (by rw [hlen]; exact hi), hlen]

theorem dist_symm_core {adj : List (List Nat)} {n : Nat}
    (hrange : ∀ a b, b ∈ adj.getD a [] → b < n)
    (hsymm : ∀ a b, b ∈ adj.getD a [] → a ∈ adj.getD b [])
    (i j : Nat) (hi : i < n) (hj : j < n) :
    (bfsFrom adj n i).getD j 0 = (bfsFrom adj n j).getD i 0 := by
  rcases bfs_correct hi hrange j hj with ⟨hij, hnij⟩ | ⟨hr_ij, hmin_ij⟩ <;>
    rcases bfs_correct hj hrange i hi with ⟨hji, hnji⟩ | ⟨hr_ji, hmin_ji⟩
  · rw [hij, hji]
  · exact absurd (ReachN.symm hsymm hr_ji) (hnij _)
  · exact absurd (ReachN.symm hsymm hr_ij) (hnji _)
  · exact le_antisymm (hmin_ij _ (ReachN.symm hsymm hr_ji))
      (hmin_ji _ (ReachN.symm hsymm hr_ij))

theorem dist_diag_core {adj : List (List Nat)} {n : Nat}
    (hrange : ∀ a b, b ∈ adj.getD a [] → b < n) (i : Nat) (hi : i < n) :
    (bfsFrom adj n i).getD i 0 = 0 := by
  rcases bfs_correct hi hrange i hi with ⟨hmax, hn⟩ | ⟨hr, hmin⟩
  · exact absurd ReachN.refl (hn 0)
  · exact Nat.le_zero.mp (hmin 0 ReachN.refl)

/-- C1 counterexample: the claim asserts symmetry for `calc_dist_matrix` of
both crates, but `vram-lock`'s `calc_adj_matrix` inserts only the
`(src,dst)` direction, so on the single-edge graph `0 → 1` its table has
`dist[0][1] = 1` while `dist[1][0]` is the unreachable sentinel. -/
theorem C1_dist_table_not_symm_vramlock :
    ((VramLock.calc_dist_matrix ⟨2, 1, [0], [1]⟩).getD 0 []).getD 1 0 ≠
      ((VramLock.calc_dist_matrix ⟨2, 1, [0], [1]⟩).getD 1 []).getD 0 0 := by
  decide

/-- C1 (amended): for every well-formed graph, the distance table of
`vram-lock-native`'s `calc_dist_matrix` (whose adjacency inserts both
`(src,dst)` and `(dst,src)`) is symmetric and has zero diagonal; the
`vram-lock` variant still has zero diagonal, but its one-directional
adjacency does not guarantee symmetry. -/
theorem C1_dist_matrix_symm_diag (g : Graph) (hwf : g.WF) :
    (∀ i j, i < g.node_size → j < g.node_size →
      ((Native.calc_dist_matrix g).getD i []).getD j 0 =
        ((Native.calc_dist_matrix g).getD j []).getD i 0) ∧
    (∀ i, i < g.node_size →
      ((Native.calc_dist_matrix g).getD i []).getD i 0 = 0) ∧
    (∀ i, i < g.node_size →
      ((VramLock.calc_dist_matrix g).getD i []).getD i 0 = 0) := by
  refine ⟨?_, ?_, ?_⟩
  · intro i j hi hj
    rw [Native.dist_row g i hi, Native.dist_row g j hj]
    exact dist_symm_core (Native.adj_range g hwf) (Native.adj_symm g hwf) i j hi hj
  · intro i hi
    rw [Native.dist_row g i hi]
    exact dist_diag_core (Native.adj_range g hwf) i hi
  · intro i hi
    rw [VramLock.vl_dist_row g i hi]
    exact dist_diag_core (VramLock.vl_adj_range g hwf) i hi

/-- C1 witness: the amended statement evaluated on the 3-node path graph. -/
theorem C1_dist_matrix_symm_diag_witness :
    (∀ i j, i < (⟨3, 2, [0, 1], [1, 2]⟩ : Graph).node_size →
        j < (⟨3, 2, [0, 1], [1, 2]⟩ : Graph).node_size →
      ((Native.calc_dist_matrix ⟨3, 2, [0, 1], [1, 2]⟩).getD i []).getD j 0 =
        ((Native.calc_dist_matrix ⟨3, 2, [0, 1], [1, 2]⟩).getD j []).getD i 0) ∧
    (∀ i, i < (⟨3, 2, [0, 1], [1, 2]⟩ : Graph).node_size →
      ((Native.calc_dist_matrix ⟨3, 2, [0, 1], [1, 2]⟩).getD i []).getD i 0 = 0) ∧
    (∀ i, i < (⟨3, 2, [0, 1], [1, 2]⟩ : Graph).node_size →
      ((VramLock.calc_dist_matrix ⟨3, 2, [0, 1], [1, 2]⟩).getD i []).getD i 0 = 0) :=
  C1_dist_matrix_symm_diag ⟨3, 2, [0, 1], [1, 2]⟩ (by decide)

/-- C7 counterexample: `vram-lock`'s `from_mtx` copies the triplet arrays
verbatim, so a diagonal entry of the input survives as a self-loop. -/
theorem C7_from_mtx_self_loop_vramlock :
    0 < (VramLock.from_mtx 1 1 [0] [0]).edge_size ∧
    (VramLock.from_mtx 1 1 [0] [0]).edge_src.getD 0 0 =
      (VramLock.from_mtx 1 1 [0] [0]).edge_dst.getD 0 0 := by
  decide

/-- C7 (amended): `vram-lock-native`'s `from_mtx` filters `row == col`
entries, so the graph it builds has no self-loop at any edge index; the
`vram-lock` variant performs no such filtering. -/
theorem C7_from_mtx_no_self_loops (rows : Nat) (row_inds col_inds : List Nat)
    (i : Nat) (hi : i < (Native.from_mtx rows row_inds col_inds).edge_size) :
    (Native.from_mtx rows row_inds col_inds).edge_src.getD i 0 ≠
      (Native.from_mtx rows row_inds col_inds).edge_dst.getD i 0 := by
  unfold Native.from_mtx at hi ⊢
  simp only at hi ⊢
  set kept := (row_inds.zip col_inds).filter (fun p => p.1 ≠ p.2) with hkept
  have hk : i < kept.length := by simpa using hi
  have hmem : kept[i] ∈ kept := List.getElem_mem hk
  have hp := List.of_mem_filter hmem
  have hne : kept[i].1 ≠ kept[i].2 := by simpa using hp
  have hsrc : (kept.map Prod.fst).getD i 0 = kept[i].1 := by
    rw [List.getD_eq_getElem?_getD, List.getElem?_map,
      List.getElem?_eq_getElem hk]
    rfl
  have hdst : (kept.map Prod.snd).getD i 0 = kept[i].2 := by
    rw [List.getD_eq_getElem?_getD, List.getElem?_map,
      List.getElem?_eq_getElem hk]
    rfl
  rw [hsrc, hdst]
  exact hne

/-- C7 witness: the amended statement evaluated on a one-entry input. -/
theorem C7_from_mtx_no_self_loops_witness :
    (Native.from_mtx 2 [0] [1]).edge_src.getD 0 0 ≠
      (Native.from_mtx 2 [0] [1]).edge_dst.getD 0 0 :=
  C7_from_mtx_no_self_loops 2 [0] [1] 0 (by decide)

/-! ### Pair weighting (`calc_edge_info`)

`f64` values in this component are exact small rationals (hop counts and
their reciprocals), so they are modelled over `ℚ`.  The running minimum
`dmin` starts at `f64::INFINITY` in the source; it is modelled as
`Option ℚ` with `none` for the untouched `INFINITY` state, `min'`
realizing `f64::min` (for which `min(INFINITY, d) = d`), and `wmaxOf`
realizing `1.0 / (dmin * dmin)` (for which `1.0 / INFINITY² = 0.0`). -/

theorem foldl_max_init_le {α : Type} [LinearOrder α] :
    ∀ (l : List α) (a : α), a ≤ l.foldl max a := by
  intro l
  induction l with
  | nil => intro a; exact le_refl a
  | cons x t ih =>
    intro a
    exact le_trans (le_max_left a x) (ih (max a x))

theorem foldl_max_le_of_mem {α : Type} [LinearOrder α] :
    ∀ (l : List α) (a d : α), d ∈ l → d ≤ l.foldl max a := by
  intro l
  induction l with
  | nil => intro a d h; cases h
  | cons x t ih =>
    intro a d h
    rcases List.mem_cons.mp h with rfl | h
    · exact le_trans (le_max_right a d) (foldl_max_init_le t (max a d))
    · exact ih (max a x) d h

theorem foldl_max_cases {α : Type} [LinearOrder α] :
    ∀ (l : List α) (a : α), l.foldl max a = a ∨ l.foldl max a ∈ l := by
  intro l
  induction l with
  | nil => intro a; exact Or.inl rfl
  | cons x t ih =>
    intro a
    rcases ih (max a x) with h | h
    · rcases max_cases a x with ⟨hm, -⟩ | ⟨hm, -⟩
      · rw [List.foldl_cons, h, hm]
        exact Or.inl rfl
      · rw [List.foldl_cons, h, hm]
        exact Or.inr (List.mem_cons_self x t)
    · exact Or.inr (List.mem_cons_of_mem x h)

theorem foldl_min_init_le {α : Type} [LinearOrder α] :
    ∀ (l : List α) (a : α), l.foldl min a ≤ a := by
  intro l
  induction l with
  | nil => intro a; exact le_refl a
  | cons x t ih =>
    intro a
    exact le_trans (ih (min a x)) (min_le_left a x)

theorem foldl_min_le_of_mem {α : Type} [LinearOrder α] :
    ∀ (l : List α) (a d : α), d ∈ l → l.foldl min a ≤ d := by
  intro l
  induction l with
  | nil => intro a d h; cases h
  | cons x t ih =>
    intro a d h
    rcases List.mem_cons.mp h with rfl | h
    · exact le_trans (foldl_min_init_le t (min a d)) (min_le_right a d)
    · exact ih (min a x) d h

theorem foldl_min_cases {α : Type} [LinearOrder α] :
    ∀ (l : List α) (a : α), l.foldl min a = a ∨ l.foldl min a ∈ l := by
  intro l
  induction l with
  | nil => intro a; exact Or.inl rfl
  | cons x t ih =>
    intro a
    rcases ih (min a x) with h | h
    · rcases min_cases a x with ⟨hm, -⟩ | ⟨hm, -⟩
      · rw [List.foldl_cons, h, hm]
        exact Or.inl rfl
      · rw [List.foldl_cons, h, hm]
        exact Or.inr (List.mem_cons_self x t)
    · exact Or.inr (List.mem_cons_of_mem x h)

theorem foldl_flatMap {α β γ : Type} (l : List α) (f : α → List β)
    (g : γ → β → γ) :
    ∀ init : γ,
      (l.flatMap f).foldl g init = l.foldl (fun acc a => (f a).foldl g acc) init := by
  induction l with
  | nil => intro init; rfl
  | cons a t ih =>
    intro init
    simp only [List.flatMap_cons, List.foldl_append, List.foldl_cons]
    exact ih _

namespace Native

/-- `EdgeInfo` of `vram-lock-native/src/graph.rs` (`f64` as `ℚ`). -/
structure EdgeInfo where
  u : Nat
  v : Nat
  dij : ℚ
  wij : ℚ
  deriving DecidableEq, Repr

/-- `dist[u][v]`. -/
def entryAt (dist : List (List Nat)) (u v : Nat) : Nat :=
  (dist.getD u []).getD v 0

/-- `f64::min` with an `Option` left operand standing for the
`f64::INFINITY` starting value: `min(INFINITY, d) = d`. -/
def minOpt (o : Option ℚ) (d : ℚ) : ℚ :=
  match o with
  | none => d
  | some m => min m d

/-- `1.0 / (dmin * dmin)` where `none` stands for `dmin = f64::INFINITY`
(there `1.0 / INFINITY² = 0.0`). -/
def wmaxOf : Option ℚ → ℚ
  | none => 0
  | some m => 1 / (m * m)

/-- The body of the pair loop of `Graph::calc_edge_info`: skip `u >= v`,
skip the unreachable sentinel, skip `dij <= 0`, otherwise push the record
and update the running extremes. -/
def edgeInfoStep (dist : List (List Nat)) (acc : List EdgeInfo × Option ℚ × ℚ)
    (p : Nat × Nat) : List EdgeInfo × Option ℚ × ℚ :=
  if p.1 ≥ p.2 then acc
  else if entryAt dist p.1 p.2 = USIZE_MAX then acc
  else if (entryAt dist p.1 p.2 : ℚ) ≤ 0 then acc
  else
    (acc.1 ++ [⟨p.1, p.2, (entryAt dist p.1 p.2 : ℚ),
        1 / ((entryAt dist p.1 p.2 : ℚ) * (entryAt dist p.1 p.2 : ℚ))⟩],
     some (minOpt acc.2.1 (entryAt dist p.1 p.2 : ℚ)),
     max acc.2.2 (entryAt dist p.1 p.2 : ℚ))

/-- The nested `u`/`v` pair loop of `Graph::calc_edge_info`, accumulating
`(pairs, dmin, dmax)` from `(vec![], INFINITY, 0.0)`. -/
def edgeInfoLoop (dist : List (List Nat)) : List EdgeInfo × Option ℚ × ℚ :=
  (List.range dist.length).foldl
    (fun acc u => (List.range (dist.getD u []).length).foldl
      (fun acc v => edgeInfoStep dist acc (u, v)) acc)
    ([], none, 0)

/-- `Graph::calc_edge_info` of `vram-lock-native/src/graph.rs`: the nested
pair loops, then `wmin = 1/dmax²` and `wmax = 1/dmin²`. -/
def calc_edge_info (dist : List (List Nat)) : List EdgeInfo × ℚ × ℚ :=
  ((edgeInfoLoop dist).1,
   1 / ((edgeInfoLoop dist).2.2 * (edgeInfoLoop dist).2.2),
   wmaxOf (edgeInfoLoop dist).2.1)

/-- Whether the pair loop retains index pair `p`. -/
def retainedB (dist : List (List Nat)) (p : Nat × Nat) : Bool :=
  decide (p.1 < p.2) && decide (entryAt dist p.1 p.2 ≠ USIZE_MAX) &&
    decide (0 < entryAt dist p.1 p.2)

/-- The record the pair loop pushes for a retained index pair. -/
def mkEdge (dist : List (List Nat)) (p : Nat × Nat) : EdgeInfo :=
  ⟨p.1, p.2, (entryAt dist p.1 p.2 : ℚ),
    1 / ((entryAt dist p.1 p.2 : ℚ) * (entryAt dist p.1 p.2 : ℚ))⟩

theorem edgeInfoStep_eq (dist : List (List Nat))
    (acc : List EdgeInfo × Option ℚ × ℚ) (p : Nat × Nat) :
    edgeInfoStep dist acc p =
      if retainedB dist p then
        (acc.1 ++ [mkEdge dist p],
         some (minOpt acc.2.1 (entryAt dist p.1 p.2 : ℚ)),
         max acc.2.2 (entryAt dist p.1 p.2 : ℚ))
      else acc := by
  unfold edgeInfoStep retainedB mkEdge
  by_cases h1 : p.1 ≥ p.2
  · have : ¬ p.1 < p.2 := by omega
    simp [h1, this]
  · by_cases h2 : entryAt dist p.1 p.2 = USIZE_MAX
    · simp [h1, h2]
    · by_cases h3 : (entryAt dist p.1 p.2 : ℚ) ≤ 0
      · have h3n : entryAt dist p.1 p.2 ≤ 0 := by exact_mod_cast h3
        have h3' : ¬ 0 < entryAt dist p.1 p.2 := by omega
        simp [h1, h2, h3, h3']
      · have h3' : 0 < entryAt dist p.1 p.2 := by
          by_contra hc
          exact h3 (by exact_mod_cast Nat.le_zero.mpr (by omega))
        have h1' : p.1 < p.2 := by omega
        simp [h1, h2, h3, h1', h3']

theorem foldl_minOpt_some :
    ∀ (l : List ℚ) (m : ℚ),
      l.foldl (fun o d => some (minOpt o d)) (some m) = some (l.foldl min m) := by
  intro l
  induction l with
  | nil => intro m; rfl
  | cons x t ih =>
    intro m
    rw [List.foldl_cons, List.foldl_cons]
    exact ih (min m x)

theorem foldl_edgeInfo (dist : List (List Nat)) :
    ∀ (L : List (Nat × Nat)) (acc : List EdgeInfo × Option ℚ × ℚ),
      L.foldl (edgeInfoStep dist) acc =
        (acc.1 ++ (L.filter (retainedB dist)).map (mkEdge dist),
         ((L.filter (retainedB dist)).map
            (fun p => (entryAt dist p.1 p.2 : ℚ))).foldl
           (fun o d => some (minOpt o d)) acc.2.1,
         ((L.filter (retainedB dist)).map
            (fun p => (entryAt dist p.1 p.2 : ℚ))).foldl max acc.2.2) := by
  intro L
  induction L with
  | nil => intro acc; simp
  | cons p t ih =>
    intro acc
    rw [List.foldl_cons, edgeInfoStep_eq]
    by_cases hc : retainedB dist p
    · rw [if_pos hc, ih]
      rw [List.filter_cons_of_pos hc]
      simp [List.append_assoc]
    · rw [if_neg hc, ih]
      rw [List.filter_cons_of_neg hc]

/-- All `(u, v)` index pairs the nested loops of `calc_edge_info` visit, in
visit order. -/
def idxList (dist : List (List Nat)) : List (Nat × Nat) :=
  (List.range dist.length).flatMap
    (fun u => (List.range (dist.getD u []).length).map (fun v => (u, v)))

/-- The index pairs the loop retains. -/
def keptIdx (dist : List (List Nat)) : List (Nat × Nat) :=
  (idxList dist).filter (retainedB dist)

theorem edgeInfoLoop_eq (dist : List (List Nat)) :
    edgeInfoLoop dist =
      ((keptIdx dist).map (mkEdge dist),
       ((keptIdx dist).map (fun p => (entryAt dist p.1 p.2 : ℚ))).foldl
         (fun o d => some (minOpt o d)) none,
       ((keptIdx dist).map (fun p => (entryAt dist p.1 p.2 : ℚ))).foldl max 0) := by
  unfold edgeInfoLoop
  have h1 : (List.range dist.length).foldl
      (fun acc u => (List.range (dist.getD u []).length).foldl
        (fun acc v => edgeInfoStep dist acc (u, v)) acc)
      (([], none, 0) : List EdgeInfo × Option ℚ × ℚ) =
      (idxList dist).foldl (edgeInfoStep dist) ([], none, 0) := by
    unfold idxList
    rw [foldl_flatMap]
    simp only [List.foldl_map]
  rw [h1, foldl_edgeInfo]
  rfl

theorem mem_idxList (dist : List (List Nat)) (p : Nat × Nat) :
    p ∈ idxList dist ↔ p.1 < dist.length ∧ p.2 < (dist.getD p.1 []).length := by
  unfold idxList
  rw [List.mem_flatMap]
  constructor
  · rintro ⟨u, hu, hp⟩
    rw [List.mem_map] at hp
    obtain ⟨v, hv, rfl⟩ := hp
    exact ⟨by simpa using List.mem_range.mp hu, by simpa using List.mem_range.mp hv⟩
  · rintro ⟨h1, h2⟩
    refine ⟨p.1, List.mem_range.mpr h1, ?_⟩
    rw [List.mem_map]
    exact ⟨p.2, List.mem_range.mpr h2, rfl⟩

theorem retained_bounds (dist : List (List Nat)) (u v : Nat)
    (h : 0 < entryAt dist u v) :
    u < dist.length ∧ v < (dist.getD u []).length := by
  unfold entryAt at h
  constructor
  · by_contra hc
    have hrow : dist.getD u [] = [] := by
      rw [List.getD_eq_getElem?_getD, List.getElem?_eq_none (by omega)]
      rfl
    rw [hrow] at h
    simp [List.getD] at h
  · by_contra hc
    have : (dist.getD u []).getD v 0 = 0 := by
      rw [List.getD_eq_getElem?_getD, List.getElem?_eq_none (by omega)]
      rfl
    omega

end Native

/-- C4: `calc_edge_info` keeps exactly the pairs `u < v` whose table entry
is finite and positive, each carrying `dij` = the entry and
`wij = 1/dij²`; when at least one pair is retained, the returned `wmin` is
`1/dmax²` for the largest retained distance `dmax` and the returned `wmax`
is `1/dmin²` for the smallest retained distance `dmin`. -/
theorem C4_calc_edge_info (dist : List (List Nat))
    (hne : (Native.calc_edge_info dist).1 ≠ []) :
    (∀ e : Native.EdgeInfo, e ∈ (Native.calc_edge_info dist).1 ↔
      (e.u < e.v ∧ Native.entryAt dist e.u e.v ≠ USIZE_MAX ∧
       0 < Native.entryAt dist e.u e.v ∧
       e.dij = (Native.entryAt dist e.u e.v : ℚ) ∧
       e.wij = 1 / (e.dij * e.dij))) ∧
    (∃ dmin dmax : ℚ,
      dmin ∈ (Native.calc_edge_info dist).1.map Native.EdgeInfo.dij ∧
      dmax ∈ (Native.calc_edge_info dist).1.map Native.EdgeInfo.dij ∧
      (∀ d ∈ (Native.calc_edge_info dist).1.map Native.EdgeInfo.dij,
        dmin ≤ d ∧ d ≤ dmax) ∧
      (Native.calc_edge_info dist).2.1 = 1 / (dmax * dmax) ∧
      (Native.calc_edge_info dist).2.2 = 1 / (dmin * dmin)) := by
  have hF : (Native.calc_edge_info dist).1 =
      (Native.keptIdx dist).map (Native.mkEdge dist) := by
    show (Native.edgeInfoLoop dist).1 = _
    rw [Native.edgeInfoLoop_eq]
  have hmapdij : (Native.calc_edge_info dist).1.map Native.EdgeInfo.dij =
      (Native.keptIdx dist).map (fun p => (Native.entryAt dist p.1 p.2 : ℚ)) := by
    rw [hF, List.map_map]
    rfl
  have hpos : ∀ d ∈ (Native.keptIdx dist).map
      (fun p => (Native.entryAt dist p.1 p.2 : ℚ)), 0 < d := by
    intro d hd
    rw [List.mem_map] at hd
    obtain ⟨p, hp, rfl⟩ := hd
    have hret := (List.mem_filter.mp hp).2
    unfold Native.retainedB at hret
    simp only [Bool.and_eq_true, decide_eq_true_eq] at hret
    exact_mod_cast hret.2
  constructor
  · intro e
    rw [hF, List.mem_map]
    constructor
    · rintro ⟨p, hp, rfl⟩
      have hret := (List.mem_filter.mp hp).2
      unfold Native.retainedB at hret
      simp only [Bool.and_eq_true, decide_eq_true_eq] at hret
      exact ⟨hret.1.1, hret.1.2, hret.2, rfl, rfl⟩
    · rintro ⟨h1, h2, h3, h4, h5⟩
      refine ⟨(e.u, e.v), ?_, ?_⟩
      · apply List.mem_filter.mpr
        refine ⟨(Native.mem_idxList dist _).mpr
          (Native.retained_bounds dist e.u e.v h3), ?_⟩
        unfold Native.retainedB
        simp only [Bool.and_eq_true, decide_eq_true_eq]
        exact ⟨⟨h1, h2⟩, h3⟩
      · cases e with
        | mk u v dij wij =>
          simp only at h4 h5
          subst h4
          subst h5
          rfl
  · cases hds : (Native.keptIdx dist).map
        (fun p => (Native.entryAt dist p.1 p.2 : ℚ)) with
    | nil =>
      exfalso
      apply hne
      rw [hF]
      cases hk : Native.keptIdx dist with
      | nil => rfl
      | cons a t =>
        rw [hk] at hds
        cases hds
    | cons d0 rest =>
      have hWmin : (Native.calc_edge_info dist).2.1 =
          1 / (((d0 :: rest).foldl max 0) * ((d0 :: rest).foldl max 0)) := by
        show 1 / ((Native.edgeInfoLoop dist).2.2 * (Native.edgeInfoLoop dist).2.2) = _
        rw [Native.edgeInfoLoop_eq]
        simp only [hds]
      have hWmax : (Native.calc_edge_info dist).2.2 =
          1 / ((rest.foldl min d0) * (rest.foldl min d0)) := by
        show Native.wmaxOf (Native.edgeInfoLoop dist).2.1 = _
        rw [Native.edgeInfoLoop_eq]
        simp only [hds]
        rw [show ((d0 :: rest).foldl (fun o d => some (Native.minOpt o d)) none) =
            rest.foldl (fun o d => some (Native.minOpt o d)) (some d0) from rfl]
        rw [Native.foldl_minOpt_some]
        rfl
      rw [hds] at hpos
      rw [hmapdij, hds]
      refine ⟨rest.foldl min d0, (d0 :: rest).foldl max 0, ?_, ?_, ?_, hWmin, hWmax⟩
      · rcases foldl_min_cases rest d0 with h | h
        · rw [h]
          exact List.mem_cons_self d0 rest
        · exact List.mem_cons_of_mem d0 h
      · rcases foldl_max_cases (d0 :: rest) 0 with h | h
        · exfalso
          have hd0 : d0 ≤ (d0 :: rest).foldl max 0 :=
            foldl_max_le_of_mem _ 0 d0 (List.mem_cons_self d0 rest)
          have hd0pos : (0 : ℚ) < d0 := hpos d0 (List.mem_cons_self d0 rest)
          rw [h] at hd0
          linarith
        · exact h
      · intro d hd
        constructor
        · rcases List.mem_cons.mp hd with rfl | h
          · exact foldl_min_init_le rest d
          · exact foldl_min_le_of_mem rest d0 d h
        · exact foldl_max_le_of_mem _ 0 d hd

/-- C4 witness: the statement evaluated on the distance table of the
two-node single-edge graph. -/
theorem C4_calc_edge_info_witness :
    (∀ e : Native.EdgeInfo, e ∈ (Native.calc_edge_info [[0, 1], [1, 0]]).1 ↔
      (e.u < e.v ∧ Native.entryAt [[0, 1], [1, 0]] e.u e.v ≠ USIZE_MAX ∧
       0 < Native.entryAt [[0, 1], [1, 0]] e.u e.v ∧
       e.dij = (Native.entryAt [[0, 1], [1, 0]] e.u e.v : ℚ) ∧
       e.wij = 1 / (e.dij * e.dij))) ∧
    (∃ dmin dmax : ℚ,
      dmin ∈ (Native.calc_edge_info [[0, 1], [1, 0]]).1.map Native.EdgeInfo.dij ∧
      dmax ∈ (Native.calc_edge_info [[0, 1], [1, 0]]).1.map Native.EdgeInfo.dij ∧
      (∀ d ∈ (Native.calc_edge_info [[0, 1], [1, 0]]).1.map Native.EdgeInfo.dij,
        dmin ≤ d ∧ d ≤ dmax) ∧
      (Native.calc_edge_info [[0, 1], [1, 0]]).2.1 = 1 / (dmax * dmax) ∧
      (Native.calc_edge_info [[0, 1], [1, 0]]).2.2 = 1 / (dmin * dmin)) :=
  C4_calc_edge_info [[0, 1], [1, 0]] (by decide)

/-! ### Learning-rate schedule (`calc_learning_rate`)

`exp`/`ln` force the model over `ℝ`.  `(tmax - 1) as f64` is `Nat`
subtraction cast to `ℝ`; at `tmax = 1` the decay-rate division is by zero,
which Lean evaluates to `0` (Rust's `f64` would give an infinity and then
NaN entries) — either way a vector comes back, which is what C6 is about. -/

/-- `calc_learning_rate` of `vram-lock-native/src/graph.rs`. -/
noncomputable def Native.calc_learning_rate (tmax : Nat) (wmin wmax eps : ℝ) :
    List ℝ :=
  (List.range tmax).map
    (fun (t : Nat) => (1 / wmin) *
      Real.exp (-(Real.log ((1 / wmin) / (eps / wmax)) / ((tmax - 1 : Nat) : ℝ))
        * (t : ℝ)))

theorem Native.calc_learning_rate_getD (tmax : Nat) (wmin wmax eps : ℝ)
    (t : Nat) (h : t < tmax) :
    (Native.calc_learning_rate tmax wmin wmax eps).getD t 0 =
      (1 / wmin) *
        Real.exp (-(Real.log ((1 / wmin) / (eps / wmax)) / ((tmax - 1 : Nat) : ℝ))
          * (t : ℝ)) := by
  unfold Native.calc_learning_rate
  rw [getD_map_range _ _ _ _ h]

theorem Native.calc_learning_rate_length (tmax : Nat) (wmin wmax eps : ℝ) :
    (Native.calc_learning_rate tmax wmin wmax eps).length = tmax := by
  simp [Native.calc_learning_rate]

/-- C3 counterexample: at `T = 2`, `eps = 1`, `wmin = wmax = 1` (all within
the claim's stated bounds) the decay rate is `ln 1 = 0` and the schedule is
the constant `[1, 1]`, which is not strictly decreasing. -/
theorem C3_schedule_constant_at_eps_one :
    Native.calc_learning_rate 2 1 1 1 = [1, 1] ∧
    ¬ List.Chain' (fun a b : ℝ => b < a) (Native.calc_learning_rate 2 1 1 1) := by
  have h : Native.calc_learning_rate 2 1 1 1 = [1, 1] := by
    unfold Native.calc_learning_rate
    rw [show List.range 2 = [0, 1] by rfl]
    norm_num [Real.log_one]
  refine ⟨h, ?_⟩
  rw [h]
  intro hc
  have := List.chain'_iff_get.mp hc 0 (by norm_num)
  norm_num at this

theorem getD_eq_get {α : Type} (l : List α) (d : α) (i : Nat)
    (h : i < l.length) : l.getD i d = l.get ⟨i, h⟩ := by
  rw [List.getD_eq_getElem?_getD, List.getElem?_eq_getElem h]
  rfl

/-- C3 (amended): for `T ≥ 2`, `0 < eps ≤ 1` and `0 < wmin ≤ wmax` with the
non-degenerate extra condition `eps·wmin < wmax` (forced by the
counterexample `eps = 1, wmin = wmax`), the schedule has length `T`, is
strictly decreasing, has identical consecutive ratios, starts at `1/wmin`
and ends at `eps/wmax`.  Without the extra condition everything but strict
decrease still holds, the ratio being `1`. -/
theorem C3_calc_learning_rate (tmax : Nat) (wmin wmax eps : ℝ)
    (ht : 2 ≤ tmax) (hw : 0 < wmin) (hww : wmin ≤ wmax)
    (he : 0 < eps) (he1 : eps ≤ 1) (hstrict : eps * wmin < wmax) :
    (Native.calc_learning_rate tmax wmin wmax eps).length = tmax ∧
    List.Chain' (fun a b : ℝ => b < a)
      (Native.calc_learning_rate tmax wmin wmax eps) ∧
    (∃ q : ℝ, 0 < q ∧ q < 1 ∧ ∀ t, t + 1 < tmax →
      (Native.calc_learning_rate tmax wmin wmax eps).getD (t + 1) 0 =
        q * (Native.calc_learning_rate tmax wmin wmax eps).getD t 0) ∧
    (Native.calc_learning_rate tmax wmin wmax eps).getD 0 0 = 1 / wmin ∧
    (Native.calc_learning_rate tmax wmin wmax eps).getD (tmax - 1) 0 =
      eps / wmax := by
  have hwmax : 0 < wmax := lt_of_lt_of_le hw hww
  have hemax : (0 : ℝ) < 1 / wmin := by positivity
  have hemin : (0 : ℝ) < eps / wmax := by positivity
  have hratio : 1 < (1 / wmin) / (eps / wmax) := by
    rw [one_lt_div hemin, div_lt_div_iff₀ hwmax hw]
    nlinarith
  have hc : (0 : ℝ) < ((tmax - 1 : Nat) : ℝ) := by
    have h1 : 1 ≤ tmax - 1 := by omega
    have h2 : (1 : ℝ) ≤ ((tmax - 1 : Nat) : ℝ) := by exact_mod_cast h1
    linarith
  have hlamb : 0 < Real.log ((1 / wmin) / (eps / wmax)) / ((tmax - 1 : Nat) : ℝ) :=
    div_pos (Real.log_pos hratio) hc
  have hfpos : ∀ t : Nat, 0 <
      (1 / wmin) * Real.exp
        (-(Real.log ((1 / wmin) / (eps / wmax)) / ((tmax - 1 : Nat) : ℝ)) * (t : ℝ)) :=
    fun t => mul_pos hemax (Real.exp_pos _)
  have hq0 : 0 < Real.exp
      (-(Real.log ((1 / wmin) / (eps / wmax)) / ((tmax - 1 : Nat) : ℝ))) :=
    Real.exp_pos _
  have hq1 : Real.exp
      (-(Real.log ((1 / wmin) / (eps / wmax)) / ((tmax - 1 : Nat) : ℝ))) < 1 :=
    Real.exp_lt_one_iff.mpr (by linarith)
  have hstep : ∀ t : Nat,
      (1 / wmin) * Real.exp
        (-(Real.log ((1 / wmin) / (eps / wmax)) / ((tmax - 1 : Nat) : ℝ)) * ((t + 1 : Nat) : ℝ)) =
      Real.exp (-(Real.log ((1 / wmin) / (eps / wmax)) / ((tmax - 1 : Nat) : ℝ))) *
        ((1 / wmin) * Real.exp
          (-(Real.log ((1 / wmin) / (eps / wmax)) / ((tmax - 1 : Nat) : ℝ)) * (t : ℝ))) := by
    intro t
    push_cast
    rw [show -(Real.log ((1 / wmin) / (eps / wmax)) / ((tmax - 1 : Nat) : ℝ)) *
          ((t : ℝ) + 1) =
        -(Real.log ((1 / wmin) / (eps / wmax)) / ((tmax - 1 : Nat) : ℝ)) * (t : ℝ) +
        -(Real.log ((1 / wmin) / (eps / wmax)) / ((tmax - 1 : Nat) : ℝ)) by ring]
    rw [Real.exp_add]
    ring
  refine ⟨Native.calc_learning_rate_length tmax wmin wmax eps, ?_, ?_, ?_, ?_⟩
  · rw [List.chain'_iff_get]
    intro i hi
    rw [Native.calc_learning_rate_length] at hi
    have hi1 : i + 1 < tmax := by omega
    have hlen := Native.calc_learning_rate_length tmax wmin wmax eps
    rw [← getD_eq_get _ 0 i (by omega), ← getD_eq_get _ 0 (i + 1) (by omega)]
    rw [Native.calc_learning_rate_getD _ _ _ _ i (by omega),
      Native.calc_learning_rate_getD _ _ _ _ (i + 1) hi1]
    calc (1 / wmin) * Real.exp
          (-(Real.log ((1 / wmin) / (eps / wmax)) / ((tmax - 1 : Nat) : ℝ)) * ((i + 1 : Nat) : ℝ))
        = Real.exp (-(Real.log ((1 / wmin) / (eps / wmax)) / ((tmax - 1 : Nat) : ℝ))) *
            ((1 / wmin) * Real.exp
              (-(Real.log ((1 / wmin) / (eps / wmax)) / ((tmax - 1 : Nat) : ℝ)) * (i : ℝ))) :=
          hstep i
      _ < (1 / wmin) * Real.exp
            (-(Real.log ((1 / wmin) / (eps / wmax)) / ((tmax - 1 : Nat) : ℝ)) * (i : ℝ)) :=
          mul_lt_of_lt_one_left (hfpos i) hq1
  · refine ⟨Real.exp
      (-(Real.log ((1 / wmin) / (eps / wmax)) / ((tmax - 1 : Nat) : ℝ))), hq0, hq1, ?_⟩
    intro t htlt
    rw [Native.calc_learning_rate_getD _ _ _ _ (t + 1) htlt,
      Native.calc_learning_rate_getD _ _ _ _ t (by omega)]
    exact hstep t
  · rw [Native.calc_learning_rate_getD _ _ _ _ 0 (by omega)]
    norm_num
  · rw [Native.calc_learning_rate_getD _ _ _ _ (tmax - 1) (by omega)]
    rw [neg_mul, div_mul_cancel₀ _ (ne_of_gt hc), Real.exp_neg,
      Real.exp_log (by linarith : (0:ℝ) < (1 / wmin) / (eps / wmax))]
    rw [inv_div]
    field_simp

/-- C3 witness: the amended statement at `T = 2`, `wmin = wmax = 1`,
`eps = 1/2`. -/
theorem C3_calc_learning_rate_witness :
    (Native.calc_learning_rate 2 1 1 (1 / 2)).length = 2 ∧
    List.Chain' (fun a b : ℝ => b < a)
      (Native.calc_learning_rate 2 1 1 (1 / 2)) ∧
    (∃ q : ℝ, 0 < q ∧ q < 1 ∧ ∀ t, t + 1 < 2 →
      (Native.calc_learning_rate 2 1 1 (1 / 2)).getD (t + 1) 0 =
        q * (Native.calc_learning_rate 2 1 1 (1 / 2)).getD t 0) ∧
    (Native.calc_learning_rate 2 1 1 (1 / 2)).getD 0 0 = 1 / 1 ∧
    (Native.calc_learning_rate 2 1 1 (1 / 2)).getD (2 - 1) 0 = (1 / 2) / 1 :=
  C3_calc_learning_rate 2 1 1 (1 / 2) (by norm_num) (by norm_num) (by norm_num)
    (by norm_num) (by norm_num) (by norm_num)

/-- C6: calling the scheduler with `T = 1 < 2` does not fail — it returns a
learning-rate sequence of length 1 (whose sole entry is garbage: the decay
rate divides by `(1 - 1) as f64 = 0`). -/
theorem C6_scheduler_returns_at_tmax_one :
    (Native.calc_learning_rate 1 1 1 (1 / 2)).length = 1 :=
  Native.calc_learning_rate_length 1 1 1 (1 / 2)

/-! ### Sequential SGD relaxation (`baseline-sgd-non-gpu/src/algorithm.rs`)

`f64` is modelled over `ℝ` (the update divides by a `sqrt`).  The
process-wide `rand::rng()` becomes an explicitly threaded generator: a
caller-supplied state type `σ` with a `shuffle` operation (for
`SliceRandom::shuffle`) and a `next` operation (for `rng.random::<f64>()`).
The generator is consulted exactly where the source consults it: once per
iteration for the shuffle, and once per degenerate pair for the random
angle. -/

namespace Baseline

/-- Modelled from the spec: the baseline crate's `graph.rs` (declaring its
`EdgeInfo`) is not among the staged sources; the fields are those
`algorithm.rs` reads (`pair.u/v/dij/wij`), matching `vram-lock-native`'s
`EdgeInfo` with `f64` as `ℝ`. -/
structure EdgeInfo where
  u : Nat
  v : Nat
  dij : ℝ
  wij : ℝ

/-- Modelled from the spec: the baseline crate's `graph.rs` (declaring its
`SgdParams`) is not among the staged sources; the fields are those
`algorithm.rs` reads (`etas`, `positions`, `pairs`, `center`). -/
structure SgdParams where
  etas : List ℝ
  positions : List (ℝ × ℝ)
  pairs : List EdgeInfo
  center : Bool

/-- The explicit random generator handed to `execute_sgd` in place of the
process-wide `rand::rng()`. -/
structure Rng (σ : Type) where
  shuffle : List EdgeInfo → σ → List EdgeInfo × σ
  next : σ → ℝ × σ

/-- `norm2` of `algorithm.rs`. -/
noncomputable def norm2 (v : ℝ × ℝ) : ℝ := Real.sqrt (v.1 * v.1 + v.2 * v.2)

/-- `sub` of `algorithm.rs`. -/
def sub (a b : ℝ × ℝ) : ℝ × ℝ := (a.1 - b.1, a.2 - b.2)

/-- `center_inplace` of `algorithm.rs`: no-op on an empty slice, otherwise
subtract the componentwise mean. -/
noncomputable def center_inplace (positions : List (ℝ × ℝ)) : List (ℝ × ℝ) :=
  if positions.isEmpty then positions
  else positions.map (fun p =>
    (p.1 - (positions.map Prod.fst).sum / (positions.length : ℝ),
     p.2 - (positions.map Prod.snd).sum / (positions.length : ℝ)))

/-- The `diff` the pair update divides by after the degeneracy guard of
`execute_sgd`: the raw difference when its norm is at least `1e-12`, else a
tiny vector at the random `angle`. -/
noncomputable def sgdDiff (positions : List (ℝ × ℝ)) (u v : Nat) (angle : ℝ) :
    ℝ × ℝ :=
  if norm2 (sub (positions.getD v (0, 0)) (positions.getD u (0, 0))) < 1e-12
  then (Real.cos angle * 1e-6, Real.sin angle * 1e-6)
  else sub (positions.getD v (0, 0)) (positions.getD u (0, 0))

/-- The recomputed `nrm` the pair update of `execute_sgd` divides by. -/
noncomputable def sgdDivisor (positions : List (ℝ × ℝ)) (u v : Nat)
    (angle : ℝ) : ℝ :=
  norm2 (sgdDiff positions u v angle)

/-- `r = ((nrm - dij)/2) * (diff / nrm)` of `execute_sgd`. -/
noncomputable def rVec (diff : ℝ × ℝ) (nrm dij : ℝ) : ℝ × ℝ :=
  (((nrm - dij) / 2) * (diff.1 / nrm), ((nrm - dij) / 2) * (diff.2 / nrm))

/-- `mu = (wij * eta).min(1.0)` of `execute_sgd`. -/
noncomputable def muOf (wij eta : ℝ) : ℝ := min (wij * eta) 1

/-- The four position writes of one pair update of `execute_sgd`:
`positions[u] += mu*r` then `positions[v] -= mu*r`. -/
noncomputable def applyPair (positions : List (ℝ × ℝ)) (u v : Nat)
    (dij wij eta : ℝ) (diff : ℝ × ℝ) (nrm : ℝ) : List (ℝ × ℝ) :=
  let p1 := positions.set u
    ((positions.getD u (0, 0)).1 + muOf wij eta * (rVec diff nrm dij).1,
     (positions.getD u (0, 0)).2 + muOf wij eta * (rVec diff nrm dij).2)
  p1.set v
    ((p1.getD v (0, 0)).1 - muOf wij eta * (rVec diff nrm dij).1,
     (p1.getD v (0, 0)).2 - muOf wij eta * (rVec diff nrm dij).2)

/-- One pair update of `execute_sgd`: consult the generator for an angle
only when the difference is degenerate, then apply the update rule with the
(possibly substituted) difference vector and its recomputed norm. -/
noncomputable def sgdPair {σ : Type} (R : Rng σ) (eta : ℝ)
    (acc : List (ℝ × ℝ) × σ) (pair : EdgeInfo) : List (ℝ × ℝ) × σ :=
  let draw :=
    if norm2 (sub (acc.1.getD pair.v (0, 0)) (acc.1.getD pair.u (0, 0))) < 1e-12
    then R.next acc.2
    else (0, acc.2)
  (applyPair acc.1 pair.u pair.v pair.dij pair.wij eta
    (sgdDiff acc.1 pair.u pair.v (draw.1 * (2 * Real.pi)))
    (sgdDivisor acc.1 pair.u pair.v (draw.1 * (2 * Real.pi))),
   draw.2)

/-- `execute_sgd` of `algorithm.rs`: for each scheduled learning rate,
shuffle the pair list and fold the pair update over it in the shuffled
order; finally recenter when `center` is set. -/
noncomputable def execute_sgd {σ : Type} (R : Rng σ) (sgd_params : SgdParams)
    (s0 : σ) : List (ℝ × ℝ) :=
  let final := sgd_params.etas.foldl
    (fun acc eta =>
      let sh := R.shuffle acc.2.1 acc.2.2
      let stepped := sh.1.foldl (sgdPair R eta) (acc.1, sh.2)
      (stepped.1, sh.1, stepped.2))
    (sgd_params.positions, sgd_params.pairs, s0)
  if sgd_params.center then center_inplace final.1 else final.1

end Baseline

/-- C5: the norm the pair update divides by is strictly positive in both
branches of the degeneracy guard: at least `1e-12` when the raw difference
is kept, and exactly `1e-6` (for every random angle, since
`sin² + cos² = 1`) when the tiny random-direction vector is substituted. -/
theorem C5_divisor_positive (positions : List (ℝ × ℝ)) (u v : Nat) (angle : ℝ) :
    0 < Baseline.sgdDivisor positions u v angle ∧
    (Baseline.norm2 (Baseline.sub (positions.getD v (0, 0))
        (positions.getD u (0, 0))) < 1e-12 →
      Baseline.sgdDivisor positions u v angle = 1e-6) := by
  have hdeg : Baseline.norm2 (Real.cos angle * 1e-6, Real.sin angle * 1e-6) = 1e-6 := by
    unfold Baseline.norm2
    rw [show (Real.cos angle * 1e-6) * (Real.cos angle * 1e-6) +
        (Real.sin angle * 1e-6) * (Real.sin angle * 1e-6) =
        (Real.sin angle ^ 2 + Real.cos angle ^ 2) * ((1e-6 : ℝ) * (1e-6 : ℝ)) by ring]
    rw [Real.sin_sq_add_cos_sq, one_mul]
    rw [show (1e-6 : ℝ) * (1e-6 : ℝ) = (1e-6 : ℝ) ^ 2 by ring]
    exact Real.sqrt_sq (by norm_num)
  unfold Baseline.sgdDivisor Baseline.sgdDiff
  by_cases hc : Baseline.norm2 (Baseline.sub (positions.getD v (0, 0))
      (positions.getD u (0, 0))) < 1e-12
  · rw [if_pos hc]
    exact ⟨by rw [hdeg]; norm_num, fun h => hdeg⟩
  · rw [if_neg hc]
    refine ⟨?_, fun h => absurd h hc⟩
    have h12 : (1e-12 : ℝ) ≤ Baseline.norm2 (Baseline.sub (positions.getD v (0, 0))
        (positions.getD u (0, 0))) := not_lt.mp hc
    have : (0 : ℝ) < 1e-12 := by norm_num
    linarith

/-- C2: on a non-degenerate pair (raw difference norm at least `1e-12`),
one pair update of `execute_sgd` moves `pos[u]` by exactly `+mu*r` and
`pos[v]` by exactly `-mu*r` with `r = ((nrm - dij)/2)*(diff/nrm)`,
`diff = pos[v] - pos[u]`, `nrm = ‖diff‖`, `mu = min(wij*eta, 1)`; every
other node's position, and the generator state, are untouched. -/
theorem C2_sgd_update_rule {σ : Type} (R : Baseline.Rng σ) (eta : ℝ)
    (positions : List (ℝ × ℝ)) (s : σ) (pair : Baseline.EdgeInfo)
    (hu : pair.u < positions.length) (hv : pair.v < positions.length)
    (huv : pair.u ≠ pair.v)
    (hnd : ¬ Baseline.norm2 (Baseline.sub (positions.getD pair.v (0, 0))
      (positions.getD pair.u (0, 0))) < 1e-12) :
    (Baseline.sgdPair R eta (positions, s) pair).1.getD pair.u (0, 0) =
      ((positions.getD pair.u (0, 0)).1 +
         Baseline.muOf pair.wij eta *
           (Baseline.rVec
             (Baseline.sub (positions.getD pair.v (0, 0)) (positions.getD pair.u (0, 0)))
             (Baseline.norm2 (Baseline.sub (positions.getD pair.v (0, 0))
               (positions.getD pair.u (0, 0))))
             pair.dij).1,
       (positions.getD pair.u (0, 0)).2 +
         Baseline.muOf pair.wij eta *
           (Baseline.rVec
             (Baseline.sub (positions.getD pair.v (0, 0)) (positions.getD pair.u (0, 0)))
             (Baseline.norm2 (Baseline.sub (positions.getD pair.v (0, 0))
               (positions.getD pair.u (0, 0))))
             pair.dij).2) ∧
    (Baseline.sgdPair R eta (positions, s) pair).1.getD pair.v (0, 0) =
      ((positions.getD pair.v (0, 0)).1 -
         Baseline.muOf pair.wij eta *
           (Baseline.rVec
             (Baseline.sub (positions.getD pair.v (0, 0)) (positions.getD pair.u (0, 0)))
             (Baseline.norm2 (Baseline.sub (positions.getD pair.v (0, 0))
               (positions.getD pair.u (0, 0))))
             pair.dij).1,
       (positions.getD pair.v (0, 0)).2 -
         Baseline.muOf pair.wij eta *
           (Baseline.rVec
             (Baseline.sub (positions.getD pair.v (0, 0)) (positions.getD pair.u (0, 0)))
             (Baseline.norm2 (Baseline.sub (positions.getD pair.v (0, 0))
               (positions.getD pair.u (0, 0))))
             pair.dij).2) ∧
    (∀ k, k ≠ pair.u → k ≠ pair.v →
      (Baseline.sgdPair R eta (positions, s) pair).1.getD k (0, 0) =
        positions.getD k (0, 0)) ∧
    (Baseline.sgdPair R eta (positions, s) pair).2 = s := by
  have hdiff : Baseline.sgdDiff positions pair.u pair.v (0 * (2 * Real.pi)) =
      Baseline.sub (positions.getD pair.v (0, 0)) (positions.getD pair.u (0, 0)) := by
    unfold Baseline.sgdDiff
    rw [if_neg hnd]
  have hsp : Baseline.sgdPair R eta (positions, s) pair =
      (Baseline.applyPair positions pair.u pair.v pair.dij pair.wij eta
        (Baseline.sub (positions.getD pair.v (0, 0)) (positions.getD pair.u (0, 0)))
        (Baseline.norm2 (Baseline.sub (positions.getD pair.v (0, 0))
          (positions.getD pair.u (0, 0)))), s) := by
    unfold Baseline.sgdPair
    simp only [if_neg hnd]
    rw [show Baseline.sgdDivisor positions pair.u pair.v (0 * (2 * Real.pi)) =
        Baseline.norm2 (Baseline.sgdDiff positions pair.u pair.v (0 * (2 * Real.pi)))
        from rfl]
    rw [hdiff]
  rw [hsp]
  simp only [Baseline.applyPair]
  refine ⟨?_, ?_, ?_, by trivial⟩
  · rw [getD_set_ne _ _ _ _ _ (fun h => huv h.symm),
      getD_set_self _ _ _ _ hu]
  · rw [getD_set_self _ _ _ _ (by rw [List.length_set]; exact hv),
      getD_set_ne _ _ _ _ _ huv]
  · intro k hku hkv
    rw [getD_set_ne _ _ _ _ _ (fun h => hkv h.symm),
      getD_set_ne _ _ _ _ _ (fun h => hku h.symm)]

/-- C2 witness: the update applied to `[(0,0), (3,4)]` on pair `(0,1)`
(difference norm `5`, non-degenerate), read back at the untouched index 2. -/
theorem C2_sgd_update_rule_witness :
    (Baseline.sgdPair (⟨fun l s => (l, s), fun s => (0, s)⟩ : Baseline.Rng Unit) 1
      ([((0 : ℝ), (0 : ℝ)), ((3 : ℝ), (4 : ℝ))], ()) ⟨0, 1, 1, 1⟩).1.getD 2 (0, 0) =
      [((0 : ℝ), (0 : ℝ)), ((3 : ℝ), (4 : ℝ))].getD 2 (0, 0) := by
  have hnd : ¬ Baseline.norm2 (Baseline.sub
      ([((0 : ℝ), (0 : ℝ)), ((3 : ℝ), (4 : ℝ))].getD 1 (0, 0))
      ([((0 : ℝ), (0 : ℝ)), ((3 : ℝ), (4 : ℝ))].getD 0 (0, 0))) < 1e-12 := by
    show ¬ Real.sqrt (((3 : ℝ) - 0) * ((3 : ℝ) - 0) +
      ((4 : ℝ) - 0) * ((4 : ℝ) - 0)) < 1e-12
    rw [show ((3 : ℝ) - 0) * ((3 : ℝ) - 0) + ((4 : ℝ) - 0) * ((4 : ℝ) - 0) =
      (5 : ℝ) ^ 2 by norm_num]
    rw [Real.sqrt_sq (by norm_num : (0 : ℝ) ≤ 5)]
    norm_num
  exact (C2_sgd_update_rule (⟨fun l s => (l, s), fun s => (0, s)⟩ : Baseline.Rng Unit) 1
    [((0 : ℝ), (0 : ℝ)), ((3 : ℝ), (4 : ℝ))] () ⟨0, 1, 1, 1⟩
    (by norm_num) (by norm_num) (by norm_num) hnd).2.2.1 2
    (by norm_num) (by norm_num)

/-- Componentwise sum of a position array. -/
def sumPos (l : List (ℝ × ℝ)) : ℝ × ℝ :=
  ((l.map Prod.fst).sum, (l.map Prod.snd).sum)

/-- Componentwise mean of a position array. -/
noncomputable def centroid (l : List (ℝ × ℝ)) : ℝ × ℝ :=
  ((sumPos l).1 / (l.length : ℝ), (sumPos l).2 / (l.length : ℝ))

theorem sumPos_cons (y : ℝ × ℝ) (r : List (ℝ × ℝ)) :
    sumPos (y :: r) = (y.1 + (sumPos r).1, y.2 + (sumPos r).2) := by
  unfold sumPos
  simp

theorem sumPos_set :
    ∀ (l : List (ℝ × ℝ)) (i : Nat) (a : ℝ × ℝ), i < l.length →
      sumPos (l.set i a) =
        ((sumPos l).1 - (l.getD i (0, 0)).1 + a.1,
         (sumPos l).2 - (l.getD i (0, 0)).2 + a.2) := by
  intro l
  induction l with
  | nil => intro i a h; cases h
  | cons x t ih =>
    intro i a h
    cases i with
    | zero =>
      show sumPos (a :: t) = _
      rw [sumPos_cons, sumPos_cons]
      have hD : (x :: t).getD 0 (0, 0) = x := rfl
      rw [hD, Prod.ext_iff]
      constructor <;> (simp only; ring)
    | succ i =>
      show sumPos (x :: t.set i a) = _
      have hlen : i < t.length := by simpa using h
      have hD : (x :: t).getD (i + 1) (0, 0) = t.getD i (0, 0) := rfl
      rw [sumPos_cons, sumPos_cons, hD, ih i a hlen, Prod.ext_iff]
      constructor <;> (simp only; ring)

theorem applyPair_length (positions : List (ℝ × ℝ)) (u v : Nat)
    (dij wij eta : ℝ) (diff : ℝ × ℝ) (nrm : ℝ) :
    (Baseline.applyPair positions u v dij wij eta diff nrm).length =
      positions.length := by
  simp only [Baseline.applyPair]
  rw [List.length_set, List.length_set]

theorem applyPair_sum (positions : List (ℝ × ℝ)) (u v : Nat)
    (dij wij eta : ℝ) (diff : ℝ × ℝ) (nrm : ℝ)
    (hu : u < positions.length) (hv : v < positions.length) :
    sumPos (Baseline.applyPair positions u v dij wij eta diff nrm) =
      sumPos positions := by
  simp only [Baseline.applyPair]
  rw [sumPos_set _ _ _ (by rw [List.length_set]; exact hv)]
  rw [sumPos_set _ _ _ hu]
  rw [Prod.ext_iff]
  constructor <;> (simp only; ring)

theorem sgdPair_length {σ : Type} (R : Baseline.Rng σ) (eta : ℝ)
    (acc : List (ℝ × ℝ) × σ) (pair : Baseline.EdgeInfo) :
    (Baseline.sgdPair R eta acc pair).1.length = acc.1.length := by
  simp only [Baseline.sgdPair]
  rw [applyPair_length]

theorem sgdPair_sum {σ : Type} (R : Baseline.Rng σ) (eta : ℝ)
    (acc : List (ℝ × ℝ) × σ) (pair : Baseline.EdgeInfo)
    (hu : pair.u < acc.1.length) (hv : pair.v < acc.1.length) :
    sumPos (Baseline.sgdPair R eta acc pair).1 = sumPos acc.1 := by
  simp only [Baseline.sgdPair]
  rw [applyPair_sum _ _ _ _ _ _ _ _ hu hv]

theorem foldPairs_sum {σ : Type} (R : Baseline.Rng σ) (eta : ℝ) :
    ∀ (L : List Baseline.EdgeInfo) (pos : List (ℝ × ℝ)) (s : σ),
      (∀ p ∈ L, p.u < pos.length ∧ p.v < pos.length) →
      sumPos (L.foldl (Baseline.sgdPair R eta) (pos, s)).1 = sumPos pos ∧
      (L.foldl (Baseline.sgdPair R eta) (pos, s)).1.length = pos.length := by
  intro L
  induction L with
  | nil => intro pos s hb; exact ⟨rfl, rfl⟩
  | cons p t ih =>
    intro pos s hb
    have hp := hb p (List.mem_cons_self p t)
    have hlen : (Baseline.sgdPair R eta (pos, s) p).1.length = pos.length :=
      sgdPair_length R eta (pos, s) p
    have hsum : sumPos (Baseline.sgdPair R eta (pos, s) p).1 = sumPos pos :=
      sgdPair_sum R eta (pos, s) p hp.1 hp.2
    have hb' : ∀ q ∈ t, q.u < (Baseline.sgdPair R eta (pos, s) p).1.length ∧
        q.v < (Baseline.sgdPair R eta (pos, s) p).1.length := by
      intro q hq
      rw [hlen]
      exact hb q (List.mem_cons_of_mem p hq)
    have := ih (Baseline.sgdPair R eta (pos, s) p).1
      (Baseline.sgdPair R eta (pos, s) p).2 hb'
    rw [List.foldl_cons]
    refine ⟨?_, ?_⟩
    · rw [this.1, hsum]
    · rw [this.2, hlen]

theorem execute_sgd_loop_inv {σ : Type} (R : Baseline.Rng σ)
    (hsh : ∀ (l : List Baseline.EdgeInfo) (s : σ), ((R.shuffle l s).1).Perm l) :
    ∀ (etas : List ℝ) (acc : List (ℝ × ℝ) × List Baseline.EdgeInfo × σ)
      (n : Nat),
      acc.1.length = n →
      (∀ p ∈ acc.2.1, p.u < n ∧ p.v < n) →
      (etas.foldl
        (fun acc eta =>
          ((((R.shuffle acc.2.1 acc.2.2).1).foldl (Baseline.sgdPair R eta)
              (acc.1, (R.shuffle acc.2.1 acc.2.2).2)).1,
           (R.shuffle acc.2.1 acc.2.2).1,
           (((R.shuffle acc.2.1 acc.2.2).1).foldl (Baseline.sgdPair R eta)
              (acc.1, (R.shuffle acc.2.1 acc.2.2).2)).2)) acc).1.length = n ∧
      sumPos (etas.foldl
        (fun acc eta =>
          ((((R.shuffle acc.2.1 acc.2.2).1).foldl (Baseline.sgdPair R eta)
              (acc.1, (R.shuffle acc.2.1 acc.2.2).2)).1,
           (R.shuffle acc.2.1 acc.2.2).1,
           (((R.shuffle acc.2.1 acc.2.2).1).foldl (Baseline.sgdPair R eta)
              (acc.1, (R.shuffle acc.2.1 acc.2.2).2)).2)) acc).1 = sumPos acc.1 := by
  intro etas
  induction etas with
  | nil =>
    intro acc n hlen hb
    exact ⟨hlen, rfl⟩
  | cons eta rest ih =>
    intro acc n hlen hb
    rw [List.foldl_cons]
    have hb1 : ∀ p ∈ (R.shuffle acc.2.1 acc.2.2).1, p.u < acc.1.length ∧
        p.v < acc.1.length := by
      intro p hp
      rw [hlen]
      exact hb p ((hsh acc.2.1 acc.2.2).mem_iff.mp hp)
    have hf := foldPairs_sum R eta (R.shuffle acc.2.1 acc.2.2).1 acc.1
      (R.shuffle acc.2.1 acc.2.2).2 hb1
    have hb2 : ∀ p ∈ (R.shuffle acc.2.1 acc.2.2).1,
        p.u < n ∧ p.v < n := by
      intro p hp
      rw [← hlen]
      exact hb1 p hp
    have := ih ((((R.shuffle acc.2.1 acc.2.2).1).foldl (Baseline.sgdPair R eta)
        (acc.1, (R.shuffle acc.2.1 acc.2.2).2)).1,
      (R.shuffle acc.2.1 acc.2.2).1,
      (((R.shuffle acc.2.1 acc.2.2).1).foldl (Baseline.sgdPair R eta)
        (acc.1, (R.shuffle acc.2.1 acc.2.2).2)).2) n
      (by simpa [hf.2] using hlen) hb2
    refine ⟨this.1, ?_⟩
    rw [this.2]
    exact hf.1

/-- C10: each pair update adds `mu*r` to `pos[u]` and subtracts the same
`mu*r` from `pos[v]`, so the componentwise sum of all positions is
invariant across the whole relaxation; with `center = false` the centroid
of the output equals the centroid of the input. -/
theorem C10_sum_and_centroid_preserved {σ : Type} (R : Baseline.Rng σ)
    (params : Baseline.SgdParams) (s0 : σ)
    (hsh : ∀ (l : List Baseline.EdgeInfo) (s : σ), ((R.shuffle l s).1).Perm l)
    (hpairs : ∀ p ∈ params.pairs, p.u < params.positions.length ∧
      p.v < params.positions.length)
    (hcenter : params.center = false) :
    sumPos (Baseline.execute_sgd R params s0) = sumPos params.positions ∧
    centroid (Baseline.execute_sgd R params s0) = centroid params.positions := by
  have key := execute_sgd_loop_inv R hsh params.etas
    (params.positions, params.pairs, s0) params.positions.length rfl hpairs
  have hexe : Baseline.execute_sgd R params s0 =
      (params.etas.foldl
        (fun acc eta =>
          ((((R.shuffle acc.2.1 acc.2.2).1).foldl (Baseline.sgdPair R eta)
              (acc.1, (R.shuffle acc.2.1 acc.2.2).2)).1,
           (R.shuffle acc.2.1 acc.2.2).1,
           (((R.shuffle acc.2.1 acc.2.2).1).foldl (Baseline.sgdPair R eta)
              (acc.1, (R.shuffle acc.2.1 acc.2.2).2)).2))
        (params.positions, params.pairs, s0)).1 := by
    simp only [Baseline.execute_sgd, hcenter]
    simp
  rw [hexe]
  refine ⟨key.2, ?_⟩
  unfold centroid
  rw [key.1, key.2]

/-- C10 witness: the preservation statement on a 2-node configuration with
one pair, a trivial generator, and `center = false`. -/
theorem C10_sum_and_centroid_preserved_witness :
    sumPos (Baseline.execute_sgd
        (⟨fun l s => (l, s), fun s => (0, s)⟩ : Baseline.Rng Unit)
        ⟨[1], [((0 : ℝ), (0 : ℝ)), ((3 : ℝ), (4 : ℝ))], [⟨0, 1, 1, 1⟩], false⟩ ()) =
      sumPos [((0 : ℝ), (0 : ℝ)), ((3 : ℝ), (4 : ℝ))] ∧
    centroid (Baseline.execute_sgd
        (⟨fun l s => (l, s), fun s => (0, s)⟩ : Baseline.Rng Unit)
        ⟨[1], [((0 : ℝ), (0 : ℝ)), ((3 : ℝ), (4 : ℝ))], [⟨0, 1, 1, 1⟩], false⟩ ()) =
      centroid [((0 : ℝ), (0 : ℝ)), ((3 : ℝ), (4 : ℝ))] :=
  C10_sum_and_centroid_preserved
    (⟨fun l s => (l, s), fun s => (0, s)⟩ : Baseline.Rng Unit)
    ⟨[1], [((0 : ℝ), (0 : ℝ)), ((3 : ℝ), (4 : ℝ))], [⟨0, 1, 1, 1⟩], false⟩ ()
    (fun l s => List.Perm.refl l)
    (by
      intro p hp
      rw [List.mem_singleton.mp hp]
      exact ⟨by norm_num, by norm_num⟩)
    rfl

/-- C8: the sequential relaxation is a pure function of its parameters and
the supplied generator state: equal seeds and equal inputs give equal
output position arrays. -/
theorem C8_execute_sgd_deterministic {σ : Type} (R : Baseline.Rng σ)
    (params : Baseline.SgdParams) (s1 s2 : σ) (h : s1 = s2) :
    Baseline.execute_sgd R params s1 = Baseline.execute_sgd R params s2 := by
  rw [h]

/-- C8 witness: two runs from the same trivial generator state coincide. -/
theorem C8_execute_sgd_deterministic_witness :
    Baseline.execute_sgd (⟨fun l s => (l, s), fun s => (0, s)⟩ : Baseline.Rng Unit)
      ⟨[1], [((0 : ℝ), (0 : ℝ))], [], false⟩ () =
    Baseline.execute_sgd (⟨fun l s => (l, s), fun s => (0, s)⟩ : Baseline.Rng Unit)
      ⟨[1], [((0 : ℝ), (0 : ℝ))], [], false⟩ () :=
  C8_execute_sgd_deterministic
    (⟨fun l s => (l, s), fun s => (0, s)⟩ : Baseline.Rng Unit)
    ⟨[1], [((0 : ℝ), (0 : ℝ))], [], false⟩ () () rfl

/-! ### Parallel mode: per-node lock protocol (C9)

Modelled from the spec: the compute kernel (`shader.metal` /
`shader.wgsl`) holding the busy-wait lock protocol is not among the staged
sources — `metal.rs` only allocates the one-flag-per-node lock buffer
(initialized to 0 = free) and dispatches one worker per pair.  Following
§4.6 of the specification, a worker for pair `(a, b)`:
acquires the lock of `a`, then of `b` (spinning on a failed
compare-and-set), re-reads both endpoint positions, computes and writes
the new positions, then releases `b` and `a`.  Two workers with an
arbitrary interleaving are modelled as a small-step system over an
abstract position value type `α`; positions are a total map `Nat → α` and
each worker's program counter walks 0 (acquire a) → 1 (acquire b) →
2 (read) → 3 (write) → 4 (release b) → 5 (release a) → 6 (done). -/

namespace Lock

/-- One worker's pair: its two endpoint node indices and its update
function from the read snapshot of the two positions to the two written
positions. -/
structure Pair (α : Type) where
  a : Nat
  b : Nat
  f : α × α → α × α

/-- Global configuration: the shared position array, the per-node lock
flags, and each worker's program counter and read snapshot. -/
structure Cfg (α : Type) where
  pos : Nat → α
  lock : Nat → Bool
  pc1 : Nat
  pc2 : Nat
  reg1 : α × α
  reg2 : α × α

/-- One atomic action of a worker with pair `w`, acting on its view
`(pos, lock, pc, reg)`; a failed lock acquisition leaves the state
unchanged (busy wait). -/
def wstep {α : Type} (w : Pair α) (pos : Nat → α) (lock : Nat → Bool)
    (pc : Nat) (reg : α × α) : (Nat → α) × (Nat → Bool) × Nat × (α × α) :=
  match pc with
  | 0 => if lock w.a then (pos, lock, 0, reg)
         else (pos, Function.update lock w.a true, 1, reg)
  | 1 => if lock w.b then (pos, lock, 1, reg)
         else (pos, Function.update lock w.b true, 2, reg)
  | 2 => (pos, lock, 3, (pos w.a, pos w.b))
  | 3 => (Function.update (Function.update pos w.a (w.f reg).1) w.b (w.f reg).2,
          lock, 4, reg)
  | 4 => (pos, Function.update lock w.b false, 5, reg)
  | 5 => (pos, Function.update lock w.a false, 6, reg)
  | _ => (pos, lock, pc, reg)

/-- Scheduler step: `who = true` runs worker 1, `who = false` worker 2. -/
def step {α : Type} (w1 w2 : Pair α) (who : Bool) (c : Cfg α) : Cfg α :=
  if who then
    let r := wstep w1 c.pos c.lock c.pc1 c.reg1
    ⟨r.1, r.2.1, r.2.2.1, c.pc2, r.2.2.2, c.reg2⟩
  else
    let r := wstep w2 c.pos c.lock c.pc2 c.reg2
    ⟨r.1, r.2.1, c.pc1, r.2.2.1, c.reg1, r.2.2.2⟩

/-- Run a whole schedule (an arbitrary interleaving of the two workers,
spins included). -/
def run {α : Type} (w1 w2 : Pair α) (sched : List Bool) (c : Cfg α) : Cfg α :=
  sched.foldl (fun c who => step w1 w2 who c) c

/-- Initial configuration: given positions, all locks free, both workers
at their first action. -/
def init {α : Type} (pos0 : Nat → α) : Cfg α :=
  ⟨pos0, fun _ => false, 0, 0, (pos0 0, pos0 0), (pos0 0, pos0 0)⟩

/-- The sequential effect of one pair update: read both endpoints, write
both endpoints. -/
def applyPair {α : Type} (w : Pair α) (pos : Nat → α) : Nat → α :=
  Function.update (Function.update pos w.a (w.f (pos w.a, pos w.b)).1)
    w.b (w.f (pos w.a, pos w.b)).2

/-- Which node locks a worker with pair `w` holds at program counter `pc`:
`a` from after the first acquire until its release, `b` from after the
second acquire until its release. -/
def holds {α : Type} (w : Pair α) (pc : Nat) (x : Nat) : Prop :=
  (x = w.a ∧ 1 ≤ pc ∧ pc ≤ 5) ∨ (x = w.b ∧ 2 ≤ pc ∧ pc ≤ 4)

/-- The protocol invariant: program counters in range, the lock flags are
exactly the held locks, no node is held by both workers, and the shared
positions and read snapshots track which writes have happened. -/
structure Inv {α : Type} (w1 w2 : Pair α) (pos0 : Nat → α) (c : Cfg α) :
    Prop where
  pc1_le : c.pc1 ≤ 6
  pc2_le : c.pc2 ≤ 6
  lock_iff : ∀ x, c.lock x = true ↔ (holds w1 c.pc1 x ∨ holds w2 c.pc2 x)
  mutex : ∀ x, ¬ (holds w1 c.pc1 x ∧ holds w2 c.pc2 x)
  phase :
    (c.pc1 ≤ 3 ∧ c.pc2 ≤ 3 ∧ c.pos = pos0 ∧
      (c.pc1 = 3 → c.reg1 = (pos0 w1.a, pos0 w1.b)) ∧
      (c.pc2 = 3 → c.reg2 = (pos0 w2.a, pos0 w2.b))) ∨
    (4 ≤ c.pc1 ∧ c.pc2 ≤ 3 ∧ c.pos = applyPair w1 pos0 ∧
      (c.pc2 = 3 → c.reg2 = (c.pos w2.a, c.pos w2.b))) ∨
    (c.pc1 ≤ 3 ∧ 4 ≤ c.pc2 ∧ c.pos = applyPair w2 pos0 ∧
      (c.pc1 = 3 → c.reg1 = (c.pos w1.a, c.pos w1.b))) ∨
    (4 ≤ c.pc1 ∧ 4 ≤ c.pc2 ∧
      (c.pos = applyPair w2 (applyPair w1 pos0) ∨
       c.pos = applyPair w1 (applyPair w2 pos0)))

end Lock


namespace Lock

theorem step1_inv {α : Type} (w1 w2 : Pair α) (pos0 : Nat → α) (s : Nat)
    (hs1 : s = w1.a ∨ s = w1.b) (hs2 : s = w2.a ∨ s = w2.b)
    (hab1 : w1.a ≠ w1.b) (c : Cfg α)
    (H : Inv w1 w2 pos0 c) : Inv w1 w2 pos0 (step w1 w2 true c) := by
  obtain ⟨p, hp⟩ : ∃ p, c.pc1 = p := ⟨_, rfl⟩
  have hple : p ≤ 6 := hp ▸ H.pc1_le
  interval_cases p
  · -- pc1 = 0: try to acquire lock a
    by_cases hl : c.lock w1.a = true
    · have hstep : step w1 w2 true c = c := by
        simp [step, wstep, hp, hl]
        rw [← hp]
      rw [hstep]
      exact H
    · have hstep : step w1 w2 true c =
          ⟨c.pos, Function.update c.lock w1.a true, 1, c.pc2, c.reg1, c.reg2⟩ := by
        simp [step, wstep, hp, hl]
      have hna : ¬ holds w2 c.pc2 w1.a := fun h =>
        hl ((H.lock_iff w1.a).mpr (Or.inr h))
      rw [hstep]
      refine { pc1_le := by dsimp only; omega, pc2_le := H.pc2_le,
               lock_iff := ?_, mutex := ?_, phase := ?_ }
      · intro x
        dsimp only
        rw [Function.update_apply]
        by_cases hx : x = w1.a
        · subst hx
          simp only [if_pos rfl]
          constructor
          · intro _
            exact Or.inl (Or.inl ⟨rfl, by omega, by omega⟩)
          · intro _
            rfl
        · simp only [if_neg hx]
          rw [H.lock_iff x, hp]
          unfold holds
          constructor
          · intro h
            rcases h with h | h
            · exact Or.inl (by omega)
            · exact Or.inr h
          · intro h
            rcases h with h | h
            · rcases h with ⟨h1, -⟩ | h
              · exact absurd h1 hx
              · exact Or.inl (Or.inr (by omega))
            · exact Or.inr h
      · intro x h
        dsimp only at h
        rcases h with ⟨h1, h2⟩
        by_cases hx : x = w1.a
        · subst hx
          exact hna h2
        · apply H.mutex x
          refine ⟨?_, h2⟩
          rw [hp]
          unfold holds at h1 ⊢
          omega
      · dsimp only
        rcases H.phase with ⟨h1, h2, h3, h4, h5⟩ | ⟨h1, h2, h3, h4⟩ |
          ⟨h1, h2, h3, h4⟩ | ⟨h1, h2, h3⟩
        · exact Or.inl ⟨by omega, h2, h3,
            (by intro hh; exact absurd hh (by omega)), h5⟩
        · rw [hp] at h1
          omega
        · exact Or.inr (Or.inr (Or.inl ⟨by omega, h2, h3,
            (by intro hh; exact absurd hh (by omega))⟩))
        · rw [hp] at h1
          omega
  · -- pc1 = 1: try to acquire lock b
    by_cases hl : c.lock w1.b = true
    · have hstep : step w1 w2 true c = c := by
        simp [step, wstep, hp, hl]
        rw [← hp]
      rw [hstep]
      exact H
    · have hstep : step w1 w2 true c =
          ⟨c.pos, Function.update c.lock w1.b true, 2, c.pc2, c.reg1, c.reg2⟩ := by
        simp [step, wstep, hp, hl]
      have hnb : ¬ holds w2 c.pc2 w1.b := fun h =>
        hl ((H.lock_iff w1.b).mpr (Or.inr h))
      rw [hstep]
      refine { pc1_le := by dsimp only; omega, pc2_le := H.pc2_le,
               lock_iff := ?_, mutex := ?_, phase := ?_ }
      · intro x
        dsimp only
        rw [Function.update_apply]
        by_cases hx : x = w1.b
        · subst hx
          simp only [if_pos rfl]
          constructor
          · intro _
            exact Or.inl (Or.inr ⟨rfl, by omega, by omega⟩)
          · intro _
            rfl
        · simp only [if_neg hx]
          rw [H.lock_iff x, hp]
          unfold holds
          constructor
          · intro h
            rcases h with h | h
            · exact Or.inl (by omega)
            · exact Or.inr h
          · intro h
            rcases h with h | h
            · rcases h with h | ⟨h1, -⟩
              · exact Or.inl (Or.inl (by omega))
              · exact absurd h1 hx
            · exact Or.inr h
      · intro x h
        dsimp only at h
        rcases h with ⟨h1, h2⟩
        by_cases hx : x = w1.b
        · subst hx
          exact hnb h2
        · apply H.mutex x
          refine ⟨?_, h2⟩
          rw [hp]
          unfold holds at h1 ⊢
          omega
      · dsimp only
        rcases H.phase with ⟨h1, h2, h3, h4, h5⟩ | ⟨h1, h2, h3, h4⟩ |
          ⟨h1, h2, h3, h4⟩ | ⟨h1, h2, h3⟩
        · exact Or.inl ⟨by omega, h2, h3,
            (by intro hh; exact absurd hh (by omega)), h5⟩
        · rw [hp] at h1
          omega
        · exact Or.inr (Or.inr (Or.inl ⟨by omega, h2, h3,
            (by intro hh; exact absurd hh (by omega))⟩))
        · rw [hp] at h1
          omega
  · -- pc1 = 2: read both positions
    have hstep : step w1 w2 true c =
        ⟨c.pos, c.lock, 3, c.pc2, (c.pos w1.a, c.pos w1.b), c.reg2⟩ := by
      simp [step, wstep, hp]
    rw [hstep]
    refine { pc1_le := by dsimp only; omega, pc2_le := H.pc2_le,
             lock_iff := ?_, mutex := ?_, phase := ?_ }
    · intro x
      dsimp only
      rw [H.lock_iff x, hp]
      unfold holds
      omega
    · intro x h
      dsimp only at h
      rcases h with ⟨h1, h2⟩
      apply H.mutex x
      refine ⟨?_, h2⟩
      rw [hp]
      unfold holds at h1 ⊢
      omega
    · dsimp only
      rcases H.phase with ⟨h1, h2, h3, h4, h5⟩ | ⟨h1, h2, h3, h4⟩ |
        ⟨h1, h2, h3, h4⟩ | ⟨h1, h2, h3⟩
      · refine Or.inl ⟨by omega, h2, h3, ?_, h5⟩
        intro _
        rw [h3]
      · rw [hp] at h1
        omega
      · refine Or.inr (Or.inr (Or.inl ⟨by omega, h2, h3, ?_⟩))
        intro _
        rfl
      · rw [hp] at h1
        omega
  · -- pc1 = 3: write both positions
    have hstep : step w1 w2 true c =
        ⟨Function.update (Function.update c.pos w1.a (w1.f c.reg1).1) w1.b
            (w1.f c.reg1).2,
         c.lock, 4, c.pc2, c.reg1, c.reg2⟩ := by
      simp [step, wstep, hp]
    rw [hstep]
    refine { pc1_le := by dsimp only; omega, pc2_le := H.pc2_le,
             lock_iff := ?_, mutex := ?_, phase := ?_ }
    · intro x
      dsimp only
      rw [H.lock_iff x, hp]
      unfold holds
      omega
    · intro x h
      dsimp only at h
      rcases h with ⟨h1, h2⟩
      apply H.mutex x
      refine ⟨?_, h2⟩
      rw [hp]
      unfold holds at h1 ⊢
      omega
    · dsimp only
      rcases H.phase with ⟨h1, h2, h3, h4, h5⟩ | ⟨h1, h2, h3, h4⟩ |
        ⟨h1, h2, h3, h4⟩ | ⟨h1, h2, h3⟩
      · -- was phase A: worker 1 writes first
        refine Or.inr (Or.inl ⟨by omega, h2, ?_, ?_⟩)
        · rw [h4 hp, h3]
          rfl
        · intro hpc2
          exfalso
          apply H.mutex s
          constructor
          · rw [hp]
            unfold holds
            omega
          · rw [hpc2]
            unfold holds
            omega
      · rw [hp] at h1
        omega
      · -- was phase B2: worker 2 wrote first
        refine Or.inr (Or.inr (Or.inr ⟨by omega, h2, Or.inr ?_⟩))
        rw [h4 hp, h3]
        rfl
      · rw [hp] at h1
        omega
  · -- pc1 = 4: release lock b
    have hstep : step w1 w2 true c =
        ⟨c.pos, Function.update c.lock w1.b false, 5, c.pc2, c.reg1, c.reg2⟩ := by
      simp [step, wstep, hp]
    have hheldb : holds w1 c.pc1 w1.b := by
      rw [hp]
      unfold holds
      omega
    have hnb : ¬ holds w2 c.pc2 w1.b := fun h => H.mutex w1.b ⟨hheldb, h⟩
    rw [hstep]
    refine { pc1_le := by dsimp only; omega, pc2_le := H.pc2_le,
             lock_iff := ?_, mutex := ?_, phase := ?_ }
    · intro x
      dsimp only
      rw [Function.update_apply]
      by_cases hx : x = w1.b
      · subst hx
        simp only [if_pos rfl]
        constructor
        · intro h
          cases h
        · intro h
          exfalso
          rcases h with h | h
          · unfold holds at h
            rcases h with ⟨h1, -⟩ | h
            · exact hab1 h1.symm
            · omega
          · exact hnb h
      · simp only [if_neg hx]
        rw [H.lock_iff x, hp]
        unfold holds
        constructor
        · intro h
          rcases h with h | h
          · exact Or.inl (by omega)
          · exact Or.inr h
        · intro h
          rcases h with h | h
          · exact Or.inl (by omega)
          · exact Or.inr h
    · intro x h
      dsimp only at h
      rcases h with ⟨h1, h2⟩
      apply H.mutex x
      refine ⟨?_, h2⟩
      rw [hp]
      unfold holds at h1 ⊢
      omega
    · dsimp only
      rcases H.phase with ⟨h1, h2, h3, h4, h5⟩ | ⟨h1, h2, h3, h4⟩ |
        ⟨h1, h2, h3, h4⟩ | ⟨h1, h2, h3⟩
      · rw [hp] at h1
        omega
      · exact Or.inr (Or.inl ⟨by omega, h2, h3, h4⟩)
      · rw [hp] at h1
        omega
      · exact Or.inr (Or.inr (Or.inr ⟨by omega, h2, h3⟩))
  · -- pc1 = 5: release lock a
    have hstep : step w1 w2 true c =
        ⟨c.pos, Function.update c.lock w1.a false, 6, c.pc2, c.reg1, c.reg2⟩ := by
      simp [step, wstep, hp]
    have hhelda : holds w1 c.pc1 w1.a := by
      rw [hp]
      unfold holds
      omega
    have hna : ¬ holds w2 c.pc2 w1.a := fun h => H.mutex w1.a ⟨hhelda, h⟩
    rw [hstep]
    refine { pc1_le := by dsimp only; omega, pc2_le := H.pc2_le,
             lock_iff := ?_, mutex := ?_, phase := ?_ }
    · intro x
      dsimp only
      rw [Function.update_apply]
      by_cases hx : x = w1.a
      · subst hx
        simp only [if_pos rfl]
        constructor
        · intro h
          cases h
        · intro h
          exfalso
          rcases h with h | h
          · unfold holds at h
            omega
          · exact hna h
      · simp only [if_neg hx]
        rw [H.lock_iff x, hp]
        unfold holds
        constructor
        · intro h
          rcases h with h | h
          · exact Or.inl (by omega)
          · exact Or.inr h
        · intro h
          rcases h with h | h
          · rcases h with ⟨h1, -⟩ | h
            · exact absurd h1 hx
            · omega
          · exact Or.inr h
    · intro x h
      dsimp only at h
      rcases h with ⟨h1, h2⟩
      unfold holds at h1
      omega
    · dsimp only
      rcases H.phase with ⟨h1, h2, h3, h4, h5⟩ | ⟨h1, h2, h3, h4⟩ |
        ⟨h1, h2, h3, h4⟩ | ⟨h1, h2, h3⟩
      · rw [hp] at h1
        omega
      · exact Or.inr (Or.inl ⟨by omega, h2, h3, h4⟩)
      · rw [hp] at h1
        omega
      · exact Or.inr (Or.inr (Or.inr ⟨by omega, h2, h3⟩))
  · -- pc1 = 6: done, no-op
    have hstep : step w1 w2 true c = c := by
      simp [step, wstep, hp]
      rw [← hp]
    rw [hstep]
    exact H

end Lock

namespace Lock

theorem step2_inv {α : Type} (w1 w2 : Pair α) (pos0 : Nat → α) (s : Nat)
    (hs1 : s = w1.a ∨ s = w1.b) (hs2 : s = w2.a ∨ s = w2.b)
    (hab2 : w2.a ≠ w2.b) (c : Cfg α)
    (H : Inv w1 w2 pos0 c) : Inv w1 w2 pos0 (step w1 w2 false c) := by
  obtain ⟨p, hp⟩ : ∃ p, c.pc2 = p := ⟨_, rfl⟩
  have hple : p ≤ 6 := hp ▸ H.pc2_le
  interval_cases p
  · -- pc2 = 0: try to acquire lock a
    by_cases hl : c.lock w2.a = true
    · have hstep : step w1 w2 false c = c := by
        simp [step, wstep, hp, hl]
        rw [← hp]
      rw [hstep]
      exact H
    · have hstep : step w1 w2 false c =
          ⟨c.pos, Function.update c.lock w2.a true, c.pc1, 1, c.reg1, c.reg2⟩ := by
        simp [step, wstep, hp, hl]
      have hna : ¬ holds w1 c.pc1 w2.a := fun h =>
        hl ((H.lock_iff w2.a).mpr (Or.inl h))
      rw [hstep]
      refine { pc1_le := H.pc1_le, pc2_le := by dsimp only; omega,
               lock_iff := ?_, mutex := ?_, phase := ?_ }
      · intro x
        dsimp only
        rw [Function.update_apply]
        by_cases hx : x = w2.a
        · subst hx
          simp only [if_pos rfl]
          constructor
          · intro _
            exact Or.inr (Or.inl ⟨rfl, by omega, by omega⟩)
          · intro _
            rfl
        · simp only [if_neg hx]
          rw [H.lock_iff x, hp]
          unfold holds
          constructor
          · intro h
            rcases h with h | h
            · exact Or.inl h
            · exact Or.inr (by omega)
          · intro h
            rcases h with h | h
            · exact Or.inl h
            · rcases h with ⟨h1, -⟩ | h
              · exact absurd h1 hx
              · exact Or.inr (Or.inr (by omega))
      · intro x h
        dsimp only at h
        rcases h with ⟨h1, h2⟩
        by_cases hx : x = w2.a
        · subst hx
          exact hna h1
        · apply H.mutex x
          refine ⟨h1, ?_⟩
          rw [hp]
          unfold holds at h2 ⊢
          omega
      · dsimp only
        rcases H.phase with ⟨h1, h2, h3, h4, h5⟩ | ⟨h1, h2, h3, h4⟩ |
          ⟨h1, h2, h3, h4⟩ | ⟨h1, h2, h3⟩
        · exact Or.inl ⟨h1, by omega, h3, h4,
            (by intro hh; exact absurd hh (by omega))⟩
        · exact Or.inr (Or.inl ⟨h1, by omega, h3,
            (by intro hh; exact absurd hh (by omega))⟩)
        · rw [hp] at h2
          omega
        · rw [hp] at h2
          omega
  · -- pc2 = 1: try to acquire lock b
    by_cases hl : c.lock w2.b = true
    · have hstep : step w1 w2 false c = c := by
        simp [step, wstep, hp, hl]
        rw [← hp]
      rw [hstep]
      exact H
    · have hstep : step w1 w2 false c =
          ⟨c.pos, Function.update c.lock w2.b true, c.pc1, 2, c.reg1, c.reg2⟩ := by
        simp [step, wstep, hp, hl]
      have hnb : ¬ holds w1 c.pc1 w2.b := fun h =>
        hl ((H.lock_iff w2.b).mpr (Or.inl h))
      rw [hstep]
      refine { pc1_le := H.pc1_le, pc2_le := by dsimp only; omega,
               lock_iff := ?_, mutex := ?_, phase := ?_ }
      · intro x
        dsimp only
        rw [Function.update_apply]
        by_cases hx : x = w2.b
        · subst hx
          simp only [if_pos rfl]
          constructor
          · intro _
            exact Or.inr (Or.inr ⟨rfl, by omega, by omega⟩)
          · intro _
            rfl
        · simp only [if_neg hx]
          rw [H.lock_iff x, hp]
          unfold holds
          constructor
          · intro h
            rcases h with h | h
            · exact Or.inl h
            · exact Or.inr (by omega)
          · intro h
            rcases h with h | h
            · exact Or.inl h
            · rcases h with h | ⟨h1, -⟩
              · exact Or.inr (Or.inl (by omega))
              · exact absurd h1 hx
      · intro x h
        dsimp only at h
        rcases h with ⟨h1, h2⟩
        by_cases hx : x = w2.b
        · subst hx
          exact hnb h1
        · apply H.mutex x
          refine ⟨h1, ?_⟩
          rw [hp]
          unfold holds at h2 ⊢
          omega
      · dsimp only
        rcases H.phase with ⟨h1, h2, h3, h4, h5⟩ | ⟨h1, h2, h3, h4⟩ |
          ⟨h1, h2, h3, h4⟩ | ⟨h1, h2, h3⟩
        · exact Or.inl ⟨h1, by omega, h3, h4,
            (by intro hh; exact absurd hh (by omega))⟩
        · exact Or.inr (Or.inl ⟨h1, by omega, h3,
            (by intro hh; exact absurd hh (by omega))⟩)
        · rw [hp] at h2
          omega
        · rw [hp] at h2
          omega
  · -- pc2 = 2: read both positions
    have hstep : step w1 w2 false c =
        ⟨c.pos, c.lock, c.pc1, 3, c.reg1, (c.pos w2.a, c.pos w2.b)⟩ := by
      simp [step, wstep, hp]
    rw [hstep]
    refine { pc1_le := H.pc1_le, pc2_le := by dsimp only; omega,
             lock_iff := ?_, mutex := ?_, phase := ?_ }
    · intro x
      dsimp only
      rw [H.lock_iff x, hp]
      unfold holds
      omega
    · intro x h
      dsimp only at h
      rcases h with ⟨h1, h2⟩
      apply H.mutex x
      refine ⟨h1, ?_⟩
      rw [hp]
      unfold holds at h2 ⊢
      omega
    · dsimp only
      rcases H.phase with ⟨h1, h2, h3, h4, h5⟩ | ⟨h1, h2, h3, h4⟩ |
        ⟨h1, h2, h3, h4⟩ | ⟨h1, h2, h3⟩
      · refine Or.inl ⟨h1, by omega, h3, h4, ?_⟩
        intro _
        rw [h3]
      · refine Or.inr (Or.inl ⟨h1, by omega, h3, ?_⟩)
        intro _
        rfl
      · rw [hp] at h2
        omega
      · rw [hp] at h2
        omega
  · -- pc2 = 3: write both positions
    have hstep : step w1 w2 false c =
        ⟨Function.update (Function.update c.pos w2.a (w2.f c.reg2).1) w2.b
            (w2.f c.reg2).2,
         c.lock, c.pc1, 4, c.reg1, c.reg2⟩ := by
      simp [step, wstep, hp]
    rw [hstep]
    refine { pc1_le := H.pc1_le, pc2_le := by dsimp only; omega,
             lock_iff := ?_, mutex := ?_, phase := ?_ }
    · intro x
      dsimp only
      rw [H.lock_iff x, hp]
      unfold holds
      omega
    · intro x h
      dsimp only at h
      rcases h with ⟨h1, h2⟩
      apply H.mutex x
      refine ⟨h1, ?_⟩
      rw [hp]
      unfold holds at h2 ⊢
      omega
    · dsimp only
      rcases H.phase with ⟨h1, h2, h3, h4, h5⟩ | ⟨h1, h2, h3, h4⟩ |
        ⟨h1, h2, h3, h4⟩ | ⟨h1, h2, h3⟩
      · -- was phase A: worker 2 writes first
        refine Or.inr (Or.inr (Or.inl ⟨h1, by omega, ?_, ?_⟩))
        · rw [h5 hp, h3]
          rfl
        · intro hpc1
          exfalso
          apply H.mutex s
          constructor
          · rw [hpc1]
            unfold holds
            omega
          · rw [hp]
            unfold holds
            omega
      · -- was phase B1: worker 1 wrote first
        refine Or.inr (Or.inr (Or.inr ⟨h1, by omega, Or.inl ?_⟩))
        rw [h4 hp, h3]
        rfl
      · rw [hp] at h2
        omega
      · rw [hp] at h2
        omega
  · -- pc2 = 4: release lock b
    have hstep : step w1 w2 false c =
        ⟨c.pos, Function.update c.lock w2.b false, c.pc1, 5, c.reg1, c.reg2⟩ := by
      simp [step, wstep, hp]
    have hheldb : holds w2 c.pc2 w2.b := by
      rw [hp]
      unfold holds
      omega
    have hnb : ¬ holds w1 c.pc1 w2.b := fun h => H.mutex w2.b ⟨h, hheldb⟩
    rw [hstep]
    refine { pc1_le := H.pc1_le, pc2_le := by dsimp only; omega,
             lock_iff := ?_, mutex := ?_, phase := ?_ }
    · intro x
      dsimp only
      rw [Function.update_apply]
      by_cases hx : x = w2.b
      · subst hx
        simp only [if_pos rfl]
        constructor
        · intro h
          cases h
        · intro h
          exfalso
          rcases h with h | h
          · exact hnb h
          · unfold holds at h
            rcases h with ⟨h1, -⟩ | h
            · exact hab2 h1.symm
            · omega
      · simp only [if_neg hx]
        rw [H.lock_iff x, hp]
        unfold holds
        constructor
        · intro h
          rcases h with h | h
          · exact Or.inl h
          · exact Or.inr (by omega)
        · intro h
          rcases h with h | h
          · exact Or.inl h
          · exact Or.inr (by omega)
    · intro x h
      dsimp only at h
      rcases h with ⟨h1, h2⟩
      apply H.mutex x
      refine ⟨h1, ?_⟩
      rw [hp]
      unfold holds at h2 ⊢
      omega
    · dsimp only
      rcases H.phase with ⟨h1, h2, h3, h4, h5⟩ | ⟨h1, h2, h3, h4⟩ |
        ⟨h1, h2, h3, h4⟩ | ⟨h1, h2, h3⟩
      · rw [hp] at h2
        omega
      · rw [hp] at h2
        omega
      · exact Or.inr (Or.inr (Or.inl ⟨h1, by omega, h3, h4⟩))
      · exact Or.inr (Or.inr (Or.inr ⟨h1, by omega, h3⟩))
  · -- pc2 = 5: release lock a
    have hstep : step w1 w2 false c =
        ⟨c.pos, Function.update c.lock w2.a false, c.pc1, 6, c.reg1, c.reg2⟩ := by
      simp [step, wstep, hp]
    have hhelda : holds w2 c.pc2 w2.a := by
      rw [hp]
      unfold holds
      omega
    have hna : ¬ holds w1 c.pc1 w2.a := fun h => H.mutex w2.a ⟨h, hhelda⟩
    rw [hstep]
    refine { pc1_le := H.pc1_le, pc2_le := by dsimp only; omega,
             lock_iff := ?_, mutex := ?_, phase := ?_ }
    · intro x
      dsimp only
      rw [Function.update_apply]
      by_cases hx : x = w2.a
      · subst hx
        simp only [if_pos rfl]
        constructor
        · intro h
          cases h
        · intro h
          exfalso
          rcases h with h | h
          · exact hna h
          · unfold holds at h
            omega
      · simp only [if_neg hx]
        rw [H.lock_iff x, hp]
        unfold holds
        constructor
        · intro h
          rcases h with h | h
          · exact Or.inl h
          · exact Or.inr (by omega)
        · intro h
          rcases h with h | h
          · exact Or.inl h
          · rcases h with ⟨h1, -⟩ | h
            · exact absurd h1 hx
            · omega
    · intro x h
      dsimp only at h
      rcases h with ⟨h1, h2⟩
      unfold holds at h2
      omega
    · dsimp only
      rcases H.phase with ⟨h1, h2, h3, h4, h5⟩ | ⟨h1, h2, h3, h4⟩ |
        ⟨h1, h2, h3, h4⟩ | ⟨h1, h2, h3⟩
      · rw [hp] at h2
        omega
      · rw [hp] at h2
        omega
      · exact Or.inr (Or.inr (Or.inl ⟨h1, by omega, h3, h4⟩))
      · exact Or.inr (Or.inr (Or.inr ⟨h1, by omega, h3⟩))
  · -- pc2 = 6: done, no-op
    have hstep : step w1 w2 false c = c := by
      simp [step, wstep, hp]
      rw [← hp]
    rw [hstep]
    exact H

end Lock

theorem Lock.run_inv {α : Type} (w1 w2 : Lock.Pair α) (pos0 : Nat → α) (s : Nat)
    (hs1 : s = w1.a ∨ s = w1.b) (hs2 : s = w2.a ∨ s = w2.b)
    (hab1 : w1.a ≠ w1.b) (hab2 : w2.a ≠ w2.b) :
    ∀ (sched : List Bool) (c : Lock.Cfg α), Lock.Inv w1 w2 pos0 c →
      Lock.Inv w1 w2 pos0 (Lock.run w1 w2 sched c) := by
  intro sched
  induction sched with
  | nil => intro c H; exact H
  | cons who rest ih =>
    intro c H
    show Lock.Inv w1 w2 pos0 (Lock.run w1 w2 rest (Lock.step w1 w2 who c))
    apply ih
    cases who
    · exact Lock.step2_inv w1 w2 pos0 s hs1 hs2 hab2 c H
    · exact Lock.step1_inv w1 w2 pos0 s hs1 hs2 hab1 c H

theorem Lock.init_inv {α : Type} (w1 w2 : Lock.Pair α) (pos0 : Nat → α) :
    Lock.Inv w1 w2 pos0 (Lock.init pos0) := by
  refine { pc1_le := by norm_num [Lock.init], pc2_le := by norm_num [Lock.init],
           lock_iff := ?_, mutex := ?_, phase := ?_ }
  · intro x
    show false = true ↔ _
    constructor
    · intro h
      cases h
    · intro h
      exfalso
      rcases h with h | h <;> (unfold Lock.holds at h; dsimp only [Lock.init] at h; omega)
  · intro x h
    rcases h with ⟨h1, -⟩
    unfold Lock.holds at h1
    dsimp only [Lock.init] at h1
    omega
  · refine Or.inl ⟨by norm_num [Lock.init], by norm_num [Lock.init], rfl, ?_, ?_⟩
    · intro h
      exact absurd h (by norm_num [Lock.init])
    · intro h
      exact absurd h (by norm_num [Lock.init])

/-- C9: in the spec-modelled per-node lock protocol, whenever the two
workers of two pairs sharing a node `s` both run to completion under an
arbitrary interleaving, the final shared positions equal one of the two
sequential orders of the two pair updates — no update is lost or applied
twice. -/
theorem C9_lock_protocol_serializes {α : Type} (w1 w2 : Lock.Pair α)
    (pos0 : Nat → α) (s : Nat) (sched : List Bool)
    (hs1 : s = w1.a ∨ s = w1.b) (hs2 : s = w2.a ∨ s = w2.b)
    (hab1 : w1.a ≠ w1.b) (hab2 : w2.a ≠ w2.b)
    (hdone : (Lock.run w1 w2 sched (Lock.init pos0)).pc1 = 6 ∧
      (Lock.run w1 w2 sched (Lock.init pos0)).pc2 = 6) :
    (Lock.run w1 w2 sched (Lock.init pos0)).pos =
        Lock.applyPair w2 (Lock.applyPair w1 pos0) ∨
    (Lock.run w1 w2 sched (Lock.init pos0)).pos =
        Lock.applyPair w1 (Lock.applyPair w2 pos0) := by
  have hInv : Lock.Inv w1 w2 pos0 (Lock.run w1 w2 sched (Lock.init pos0)) :=
    Lock.run_inv w1 w2 pos0 s hs1 hs2 hab1 hab2 sched (Lock.init pos0)
      (Lock.init_inv w1 w2 pos0)
  rcases hInv.phase with ⟨h1, -, -⟩ | ⟨-, h2, -⟩ | ⟨h1, -, -⟩ | ⟨-, -, h⟩
  · rw [hdone.1] at h1
    omega
  · rw [hdone.2] at h2
    omega
  · rw [hdone.1] at h1
    omega
  · exact h

/-- C9 witness: pairs `(0,1)` and `(1,2)` sharing node `1` over natural
number positions, worker 1 scheduled to completion and then worker 2. -/
theorem C9_lock_protocol_serializes_witness :
    (Lock.run (⟨0, 1, fun p => (p.1 + 1, p.2 + 2)⟩ : Lock.Pair ℕ)
        (⟨1, 2, fun p => (p.2, p.1)⟩ : Lock.Pair ℕ)
        [true, true, true, true, true, true,
         false, false, false, false, false, false]
        (Lock.init (fun _ => 0))).pos =
      Lock.applyPair (⟨1, 2, fun p => (p.2, p.1)⟩ : Lock.Pair ℕ)
        (Lock.applyPair (⟨0, 1, fun p => (p.1 + 1, p.2 + 2)⟩ : Lock.Pair ℕ)
          (fun _ => 0)) ∨
    (Lock.run (⟨0, 1, fun p => (p.1 + 1, p.2 + 2)⟩ : Lock.Pair ℕ)
        (⟨1, 2, fun p => (p.2, p.1)⟩ : Lock.Pair ℕ)
        [true, true, true, true, true, true,
         false, false, false, false, false, false]
        (Lock.init (fun _ => 0))).pos =
      Lock.applyPair (⟨0, 1, fun p => (p.1 + 1, p.2 + 2)⟩ : Lock.Pair ℕ)
        (Lock.applyPair (⟨1, 2, fun p => (p.2, p.1)⟩ : Lock.Pair ℕ)
          (fun _ => 0)) :=
  C9_lock_protocol_serializes
    (⟨0, 1, fun p => (p.1 + 1, p.2 + 2)⟩ : Lock.Pair ℕ)
    (⟨1, 2, fun p => (p.2, p.1)⟩ : Lock.Pair ℕ)
    (fun _ => 0) 1
    [true, true, true, true, true, true,
     false, false, false, false, false, false]
    (Or.inr rfl) (Or.inl rfl) (by decide) (by decide)
    ⟨by decide, by decide⟩
